import Mathlib

/-!
# Verification of the SEC filing section/chunking engine

A shallow embedding of `src/ingestion/core/processor.py` (class `SECProcessor`)
together with proofs about its behaviour.

Modelling conventions:

* Python strings are modelled as `List Char` (`Str`).  The documents handled by
  the processor are ASCII HTML, so the ASCII fragments of Python's `\s`,
  `str.strip`, `str.lower`, `str.splitlines` and of `re.IGNORECASE` are
  modelled (the extra Unicode whitespace/case-folding accepted by Python never
  occurs in these inputs).
* The regular expressions used by the processor are fixed, so each one is
  translated into a dedicated matching function implementing exactly the
  backtracking behaviour of that pattern (greedy quantifiers, word boundaries,
  lazy `.*?`, non-rescanning `re.sub`).
* Scanning loops whose step is not structurally decreasing are written with an
  explicit fuel argument equal to the input length (each step consumes at least
  one character, so the fuel is never exhausted); this keeps every definition
  computable by `rfl`/`decide`.  The force-split loop of `_chunk_text` is the
  exception: it is defined by well-founded recursion because its termination is
  itself one of the verified properties.
* BeautifulSoup is an external library: the HTML tree is modelled by `Node`
  (tag name, `id` attribute, `name` attribute, children), and tree-independent
  logic (`_extract_table_of_contents`, `_extract_sections`) takes the values
  produced by soup queries (container/link lists, text nodes, start-element
  lookup) as inputs, exactly as the Python code receives them from bs4.
* `ITEM_TITLE_MAPPING` (module `ingestion.core.constants`) is not part of the
  sources; following the spec ("look up a canonical title for the item number
  from a static item→title table; fall back to the raw captured text") the
  table is a parameter `titleMap`, and every theorem holds for all tables.
-/

namespace SECProcessor

/-- Python strings, modelled as lists of characters. -/
abbrev Str := List Char

/-- ASCII whitespace: the characters accepted by Python's `\s`, `str.strip()`
and friends (space, tab, newline, carriage return, vertical tab, form feed). -/
def isPySpace (c : Char) : Bool :=
  c == ' ' || c == '\t' || c == '\n' || c == '\r' || c == '\u000B' || c == '\u000C'

/-- `str.strip()`: remove leading and trailing whitespace. -/
def stripStr (s : Str) : Str :=
  ((s.dropWhile isPySpace).reverse.dropWhile isPySpace).reverse

/-- `str.lower()` (ASCII: `Char.toLower` lowers exactly `'A'..'Z'`). -/
def lowerStr (s : Str) : Str := s.map Char.toLower

/-- `str.rstrip(".")`: remove trailing dots. -/
def rstripDots (s : Str) : Str := (s.reverse.dropWhile (· == '.')).reverse

def isAsciiDigit (c : Char) : Bool := '0' ≤ c && c ≤ '9'

def isAsciiLetter (c : Char) : Bool :=
  ('a' ≤ c && c ≤ 'z') || ('A' ≤ c && c ≤ 'Z')

/-- Word characters for the regex metacharacter `\b` (`[A-Za-z0-9_]`). -/
def isWordChar (c : Char) : Bool := isAsciiLetter c || isAsciiDigit c || c == '_'

/-- Line-break characters recognised by `str.splitlines()` (ASCII fragment:
`\n`, `\r`, `\v`, `\f`; the pair `\r\n` counts as a single break). -/
def isLineBreak (c : Char) : Bool :=
  c == '\n' || c == '\r' || c == '\u000B' || c == '\u000C'

/-- `str.splitlines()`, inner loop: `cur` holds the current line reversed.  A
break at the very end of the string does not produce a trailing empty line. -/
def splitlinesAux (cur : Str) : Str → List Str
  | [] => [cur.reverse]
  | '\r' :: '\n' :: r => cur.reverse :: (if r.isEmpty then [] else splitlinesAux [] r)
  | c :: r =>
    if isLineBreak c then cur.reverse :: (if r.isEmpty then [] else splitlinesAux [] r)
    else splitlinesAux (c :: cur) r

/-- `str.splitlines()` (`"".splitlines() == []`). -/
def splitlines : Str → List Str
  | [] => []
  | s => splitlinesAux [] s

/-! ## The item-heading pattern

`re.compile(r"^\s*(Item\s+\d+[A-Z]?\.?)\b", re.IGNORECASE)` (processor.py line
25), used with `.match` (anchored at the start of the string).  The group is
`Item\s+\d+[A-Z]?\.?`; after the maximal runs are taken for `\s*`, `\s+` and
`\d+` no backtracking into them can succeed (`\s*`/`\s+` are followed by a
non-whitespace literal/class, and giving back a digit from `\d+` puts a word
character right after the group where `\b` can never hold), so only the two
optional elements `[A-Z]?` and `\.?` backtrack. -/

/-- `\b` when the character before the position is a word character. -/
def boundaryAfterWord : Str → Bool
  | [] => true
  | c :: _ => !isWordChar c

/-- `\b` when the character before the position is `'.'` (not a word char). -/
def boundaryAfterDot : Str → Bool
  | [] => false
  | c :: _ => isWordChar c

/-- Try `\.?\b` directly after the digits (the `[A-Z]?` branch was not taken
or failed).  Returns the extra characters consumed by the group. -/
def tailNoLetter (rest : Str) : Option Str :=
  match rest with
  | '.' :: r2 =>
    if boundaryAfterDot r2 then some ['.']
    else if boundaryAfterWord rest then some [] else none
  | _ => if boundaryAfterWord rest then some [] else none

/-- Try `[A-Z]?\.?\b` after the digits, greedy options first
(`re.IGNORECASE` makes `[A-Z]` accept both cases). -/
def tailAfterDigits (rest : Str) : Option Str :=
  match rest with
  | l :: r1 =>
    if isAsciiLetter l then
      match r1 with
      | '.' :: r2 =>
        if boundaryAfterDot r2 then some [l, '.']
        else if boundaryAfterWord r1 then some [l] else tailNoLetter rest
      | _ => if boundaryAfterWord r1 then some [l] else tailNoLetter rest
    else tailNoLetter rest
  | [] => tailNoLetter rest

/-- `item_pattern.match(s)`: `some g` with `g` the text of group 1 when the
pattern matches at the start of `s`, `none` otherwise. -/
def itemMatch (s : Str) : Option Str :=
  match s.dropWhile isPySpace with
  | a :: b :: c :: d :: r1 =>
    if a.toLower == 'i' && b.toLower == 't' && c.toLower == 'e' && d.toLower == 'm' then
      let ws2 := r1.takeWhile isPySpace
      let r2 := r1.dropWhile isPySpace
      if ws2.isEmpty then none
      else
        let digs := r2.takeWhile isAsciiDigit
        let r3 := r2.dropWhile isAsciiDigit
        if digs.isEmpty then none
        else
          match tailAfterDigits r3 with
          | some extra => some ([a, b, c, d] ++ ws2 ++ digs ++ extra)
          | none => none
    else none
  | _ => none

/-- `match.group(1).strip().rstrip(".")` (processor.py lines 113, 141). -/
def itemNumberOf (grp : Str) : Str := rstripDots (stripStr grp)

/-! ## The Cleaner: `_clean_section_content` (processor.py lines 316-334) -/

/-- The boilerplate heading matched case-insensitively by the first `re.sub`. -/
def flsPhrase : Str := "forward-looking statements".toList

/-- Case-insensitive prefix test (the pattern side is already lowercase). -/
def matchesCIPre : Str → Str → Bool
  | [], _ => true
  | _ :: _, [] => false
  | p :: ps, c :: cs => p == c.toLower && matchesCIPre ps cs

/-- Index of the first occurrence of `"\n\n"`. -/
def findDblNl : Str → Option Nat
  | '\n' :: '\n' :: _ => some 0
  | _ :: r => (findDblNl r).map (· + 1)
  | [] => none

/-- Length of the match of `Forward-Looking Statements.*?(?:\n\n|\Z)`
(`IGNORECASE | DOTALL`) at the start of `s`, if any: the lazy `.*?` extends to
the first `"\n\n"` (consumed) or to the end of the string. -/
def matchFLSLen (s : Str) : Option Nat :=
  if matchesCIPre flsPhrase s then
    some (match findDblNl (s.drop flsPhrase.length) with
          | some i => flsPhrase.length + i + 2
          | none => s.length)
  else none

/-- `re.sub` scan for the forward-looking-statements pattern: each match is
removed and scanning resumes after it (spliced-together text is not
rescanned).  Fuel = string length (every step consumes ≥ 1 character). -/
def removeFLSAux : Nat → Str → Str
  | 0, s => s
  | _ + 1, [] => []
  | fuel + 1, c :: r =>
    match matchFLSLen (c :: r) with
    | some k => removeFLSAux fuel ((c :: r).drop k)
    | none => c :: removeFLSAux fuel r

/-- `re.sub(r"Forward-Looking Statements.*?(?:\n\n|\Z)", "", text, IGNORECASE|DOTALL)`. -/
def removeFLS (s : Str) : Str := removeFLSAux s.length s

/-- The character class `[A-Za-z ]` of the signature pattern. -/
def isSigClass (c : Char) : Bool := isAsciiLetter c || c == ' '

/-- Backtracking split between `\s+` and `[A-Za-z ]{5,}`: `\s+` takes `j`
characters (greedy, from the maximal run down to 1) and the class then takes
its maximal run, which must have length ≥ 5.  Returns the length consumed
after `"/s/"`. -/
def sigTryJ (tail : Str) : Nat → Option Nat
  | 0 => none
  | j + 1 =>
    let k := ((tail.drop (j + 1)).takeWhile isSigClass).length
    if 5 ≤ k then some (j + 1 + k) else sigTryJ tail j

/-- Length of the match of `\s*/s/\s+[A-Za-z ]{5,}` at the start of `s`, if
any (`\s*` is forced to the maximal whitespace run since `/` is not
whitespace). -/
def matchSigLen (s : Str) : Option Nat :=
  let w0 := (s.takeWhile isPySpace).length
  match s.drop w0 with
  | '/' :: 's' :: '/' :: tail =>
    (sigTryJ tail (tail.takeWhile isPySpace).length).map (fun t => w0 + 3 + t)
  | _ => none

/-- `re.sub` scan for the signature pattern (same conventions as
`removeFLSAux`). -/
def removeSigAux : Nat → Str → Str
  | 0, s => s
  | _ + 1, [] => []
  | fuel + 1, c :: r =>
    match matchSigLen (c :: r) with
    | some k => removeSigAux fuel ((c :: r).drop k)
    | none => c :: removeSigAux fuel r

/-- `re.sub(r"\s*/s/\s+[A-Za-z ]{5,}", "", text)`. -/
def removeSig (s : Str) : Str := removeSigAux s.length s

/-- `re.sub(r"\n{3,}", "\n\n", s)`: a maximal run of newlines (head `c` plus
the `takeWhile` of the tail) of length ≥ 3 becomes two newlines and scanning
resumes after the run (`dropWhile`); shorter runs are left as they are. -/
def collapseBlankAux : Nat → Str → Str
  | 0, s => s
  | _ + 1, [] => []
  | fuel + 1, c :: r =>
    if c == '\n' then
      if 2 ≤ (r.takeWhile (· == '\n')).length then
        '\n' :: '\n' :: collapseBlankAux fuel (r.dropWhile (· == '\n'))
      else c :: collapseBlankAux fuel r
    else c :: collapseBlankAux fuel r

def collapseBlank (s : Str) : Str := collapseBlankAux s.length s

def isHSpace (c : Char) : Bool := c == ' ' || c == '\t'

/-- `re.sub(r"[ \t]{2,}", " ", s)`: a maximal run of ≥ 2 spaces/tabs (head
plus the `takeWhile` of the tail) becomes one space; a run of exactly one
character (e.g. a lone tab) is left unchanged. -/
def collapseHSpaceAux : Nat → Str → Str
  | 0, s => s
  | _ + 1, [] => []
  | fuel + 1, c :: r =>
    if isHSpace c then
      if (r.takeWhile isHSpace).isEmpty then c :: collapseHSpaceAux fuel r
      else ' ' :: collapseHSpaceAux fuel (r.dropWhile isHSpace)
    else c :: collapseHSpaceAux fuel r

def collapseHSpace (s : Str) : Str := collapseHSpaceAux s.length s

/-- The line filter of `_clean_section_content`: keep `line.strip()` when it is
longer than 10 characters or itself matches the item-heading pattern. -/
def keepLine (line : Str) : Option Str :=
  let s := stripStr line
  if 10 < s.length || (itemMatch s).isSome then some s else none

/-- `_clean_section_content` (processor.py lines 316-334): strip the
forward-looking-statements block, strip `/s/` signature text, filter
low-information lines, re-join and normalise whitespace. -/
def clean_section_content (text : Str) : Str :=
  let t1 := removeFLS text
  let t2 := removeSig t1
  let kept := (splitlines t2).filterMap keepLine
  let t3 := stripStr (List.intercalate ['\n'] kept)
  collapseHSpace (collapseBlank t3)

/-! ## The Chunker: `_chunk_text` (processor.py lines 336-402) -/

/-- `re.split(r"\n\s*\n", text)`: a match is a newline, a maximal stretch of
whitespace up to and including its last contained newline (greedy `\s*`
backtracks to leave a final `\n`).  `lastNlIdx` finds that last newline. -/
def lastNlIdx : Str → Option Nat
  | [] => none
  | c :: r =>
    match lastNlIdx r with
    | some i => some (i + 1)
    | none => if c == '\n' then some 0 else none

/-- Scanner for `re.split(r"\n\s*\n", text)`; `cur` is the current piece
reversed, fuel = string length. -/
def paraSplitAux : Nat → Str → Str → List Str
  | 0, cur, s => [cur.reverse ++ s]
  | _ + 1, cur, [] => [cur.reverse]
  | fuel + 1, cur, c :: r =>
    if c == '\n' then
      match lastNlIdx (r.takeWhile isPySpace) with
      | some i => cur.reverse :: paraSplitAux fuel [] (r.drop (i + 1))
      | none => paraSplitAux fuel (c :: cur) r
    else paraSplitAux fuel (c :: cur) r

/-- `paragraphs = re.split(r"\n\s*\n", text)` (processor.py line 342). -/
def paraSplit (s : Str) : List Str := paraSplitAux s.length [] s

/-- `"\n\n".join(ps)`. -/
def joinParas (ps : List Str) : Str := List.intercalate ['\n', '\n'] ps

/-- The backward-overlap accumulation (processor.py lines 356-369): walk the
closed chunk's paragraphs in reverse (`rev`), prepending whole paragraphs to
`acc` while the accumulated length (with `"\n\n"` separators) stays within
`overlap`; stop at the first paragraph that does not fit. -/
def overlapLoop (overlap : Nat) : List Str → List Str → Nat → List Str × Nat
  | [], acc, len => (acc, len)
  | p :: rest, acc, len =>
    let extra := if acc.isEmpty then 0 else 2
    if len + p.length + extra ≤ overlap then
      overlapLoop overlap rest (p :: acc) (len + p.length + extra)
    else (acc, len)

/-- The greedy paragraph-packing loop of `_chunk_text` (lines 347-381):
`cur`/`cur_len` mirror `current_chunk_paragraphs`/`current_chunk_len`; on
overflow the current chunk is emitted and the next one is seeded with the
backward overlap. -/
def packParagraphs (chunk_size overlap : Nat) :
    List Str → Nat → List Str → List Str
  | cur, _, [] => if cur.isEmpty then [] else [joinParas cur]
  | cur, cur_len, p :: ps =>
    let p_strip := stripStr p
    if p_strip.isEmpty then packParagraphs chunk_size overlap cur cur_len ps
    else
      let p_len := p_strip.length
      if !cur.isEmpty && decide (chunk_size < cur_len + p_len + 2) then
        let ov := overlapLoop overlap cur.reverse [] 0
        joinParas cur ::
          packParagraphs chunk_size overlap (ov.1 ++ [p_strip])
            (ov.2 + p_len + if ov.1.isEmpty then 0 else 2) ps
      else
        packParagraphs chunk_size overlap (cur ++ [p_strip])
          (cur_len + p_len + if cur.isEmpty then 0 else 2) ps

/-- `next_start = start + chunk_size - overlap`, with the guard
`if next_start <= start: next_start = start + 1` (lines 394-396) that prevents
an infinite loop when `overlap >= chunk_size`.  (Subtraction is `Nat`
subtraction; `start + chunk_size - overlap ≤ start` holds exactly when the
Python value `start + chunk_size - overlap` is `≤ start`, i.e. when
`chunk_size ≤ overlap`.) -/
def nextStart (chunk_size overlap start : Nat) : Nat :=
  if start + chunk_size - overlap ≤ start then start + 1 else
    start + chunk_size - overlap

/-- The force-split loop (lines 388-399): emit fixed windows
`chunk[start : start + chunk_size]` while `start < len(chunk)`, advancing by
`nextStart`.  Well-founded on `chunk.length - start`; the termination argument
is exactly the strict advance of the window start. -/
def forceSplitFrom (chunk : Str) (chunk_size overlap : Nat) (start : Nat) :
    List Str :=
  if _h : start < chunk.length then
    ((chunk.drop start).take chunk_size) ::
      forceSplitFrom chunk chunk_size overlap (nextStart chunk_size overlap start)
  else []
termination_by chunk.length - start
decreasing_by
  have : start < nextStart chunk_size overlap start := by
    unfold nextStart; split <;> omega
  omega

/-- The fallback pass of `_chunk_text` (lines 384-401): a chunk longer than
`chunk_size * 1.3` is force-split; the comparison `len(chunk) > chunk_size * 1.3`
is modelled exactly as `13 * chunk_size < 10 * len(chunk)` (for the relevant
magnitudes the float product `chunk_size * 1.3` and the rational `13/10 *
chunk_size` admit the same integers below them). -/
def finalPass (chunk_size overlap : Nat) : List Str → List Str
  | [] => []
  | chunk :: rest =>
    if 13 * chunk_size < 10 * chunk.length then
      forceSplitFrom chunk chunk_size overlap 0 ++ finalPass chunk_size overlap rest
    else if chunk.isEmpty then finalPass chunk_size overlap rest
    else chunk :: finalPass chunk_size overlap rest

/-- `_chunk_text(text, chunk_size, overlap)` (processor.py lines 336-402).
The Python defaults are `chunk_size=1500, overlap=200`. -/
def chunk_text (text : Str) (chunk_size overlap : Nat) : List Str :=
  if text.isEmpty then []
  else finalPass chunk_size overlap (packParagraphs chunk_size overlap [] 0 (paraSplit text))

/-! ## Data model (`models/ingestion_models.py`) -/

structure TableOfContentsItem where
  item_number : Str
  title : Str
  anchor_text : Option Str
deriving DecidableEq

structure Section where
  item_number : Str
  title : Str
  content : Str
deriving DecidableEq

structure ChunkMetadata where
  company : Str
  year : Int
  item : Str
  title : Str
  chunk_id : Nat
  source : Str
deriving DecidableEq

structure DocumentChunk where
  text : Str
  metadata : ChunkMetadata
deriving DecidableEq

/-! ## `_section_to_chunks` (processor.py lines 404-442) -/

/-- `_section_to_chunks(section, company, year, source)`:
`chunk_long_items` is the constructor flag of `SECProcessor`.  `_chunk_text`
is called with its default parameters.  A section is emitted as a single
chunk when chunking is disabled or the text produced exactly one chunk; the
single chunk's text is `text_chunks[0]` if there was exactly one chunk and
the original `section.content` otherwise. -/
def section_to_chunks (chunk_long_items : Bool) (sec : Section)
    (company : Str) (year : Int) (source : Str) : List DocumentChunk :=
  if sec.content.isEmpty then []
  else
    match chunk_text sec.content 1500 200 with
    | [] => []
    | t :: rest =>
      let meta := fun (i : Nat) =>
        ChunkMetadata.mk company year sec.item_number sec.title i source
      if !chunk_long_items || rest.isEmpty then
        [⟨if rest.isEmpty then t else sec.content, meta 0⟩]
      else
        ((t :: rest).enum).map (fun ic => ⟨ic.2, meta ic.1⟩)

/-! ## `_extract_table_of_contents` (processor.py lines 94-160)

Strategy A iterates over the candidate containers
`soup.find_all(["table", "ul", "ol", "div"])`; each container is modelled by
the list of its `<a>` descendants, a link being its `href` attribute (if any)
and the visible text `link.get_text(" ", strip=True)`.  Strategy B iterates
over `soup.find_all(string=True)`; each text node is modelled by its string
and its parent tag's name, `id` attribute and `name` attribute (every text
node of a parsed document has a parent, so `find_parent()` always succeeds). -/

structure TocLink where
  href : Option Str
  text : Str

structure TocTextNode where
  text : Str
  parentName : String
  parentId : Option Str
  parentNameAttr : Option Str

/-- `_get_item_title` (lines 91-92): canonical title from the static table,
falling back to the raw item id.  `ITEM_TITLE_MAPPING` is the parameter
`titleMap` (its module is not among the sources; per the spec it is a static
item→title table). -/
def get_item_title (titleMap : Str → Option Str) (item_id : Str) : Str :=
  (titleMap (stripStr item_id)).getD item_id

/-- `parent.find_all("a", href=lambda href: href and href.startswith("#"))`:
keep the links whose `href` is present, non-empty and starts with `#`,
as `(href, link_text)` pairs. -/
def fragmentLinks (links : List TocLink) : List (Str × Str) :=
  links.filterMap (fun l =>
    match l.href with
    | some ('#' :: h) => some ('#' :: h, l.text)
    | _ => none)

/-- The inner loop over one container's links (lines 109-125): match each
link text against the item pattern, dedup case-insensitively via `seen`, and
record in `flag` (`found_toc_in_links`) whether some item was appended. -/
def processLinks (titleMap : Str → Option Str) :
    List (Str × Str) → List TableOfContentsItem → List Str → Bool →
    List TableOfContentsItem × List Str × Bool
  | [], items, seen, flag => (items, seen, flag)
  | (href, txt) :: rest, items, seen, flag =>
    match itemMatch txt with
    | some grp =>
      let item_number := itemNumberOf grp
      if lowerStr item_number ∈ seen then
        processLinks titleMap rest items seen flag
      else
        processLinks titleMap rest
          (items ++ [⟨item_number, get_item_title titleMap item_number, some href⟩])
          (seen ++ [lowerStr item_number]) true
    | none => processLinks titleMap rest items seen flag

/-- Strategy A's container loop (lines 102-128): containers without fragment
links are skipped (`continue`); after a container is fully scanned, the loop
breaks if `found_toc_in_links` is set. -/
def scanContainers (titleMap : Str → Option Str) :
    List (List TocLink) → List TableOfContentsItem → List Str → Bool →
    List TableOfContentsItem × List Str
  | [], items, seen, _ => (items, seen)
  | parent :: rest, items, seen, flag =>
    let links := fragmentLinks parent
    if links.isEmpty then scanContainers titleMap rest items seen flag
    else
      let r := processLinks titleMap links items seen flag
      if r.2.2 then (r.1, r.2.1)
      else scanContainers titleMap rest r.1 r.2.1 r.2.2

/-- Python attribute truthiness for `parent_tag.get(...)`: a missing attribute
or an empty string is falsy. -/
def attrTruthy : Option Str → Option Str
  | some v => if v.isEmpty then none else some v
  | none => none

/-- The anchor derived for a Strategy B hit (lines 142-148): `#` plus the
parent's `id` attribute if truthy, else `#` plus its `name` attribute if
truthy, else no anchor. -/
def tocTextNodeAnchor (n : TocTextNode) : Option Str :=
  match attrTruthy n.parentId with
  | some i => some ('#' :: i)
  | none =>
    match attrTruthy n.parentNameAttr with
    | some nm => some ('#' :: nm)
    | none => none

/-- Strategy B, the text-search fallback (lines 134-158): skip script/style
text, match the stripped node text, derive the anchor from the parent's
`id`/`name` attribute, and append subject to dedup and `len(item_number) < 20`. -/
def scanTextNodes (titleMap : Str → Option Str) :
    List TocTextNode → List TableOfContentsItem → List Str →
    List TableOfContentsItem × List Str
  | [], items, seen => (items, seen)
  | n :: rest, items, seen =>
    if n.parentName == "script" || n.parentName == "style" then
      scanTextNodes titleMap rest items seen
    else
      match itemMatch (stripStr n.text) with
      | some grp =>
        let item_number := itemNumberOf grp
        if lowerStr item_number ∉ seen ∧ item_number.length < 20 then
          scanTextNodes titleMap rest
            (items ++ [⟨item_number, get_item_title titleMap item_number,
              tocTextNodeAnchor n⟩])
            (seen ++ [lowerStr item_number])
        else scanTextNodes titleMap rest items seen
      | none => scanTextNodes titleMap rest items seen

/-- `_extract_table_of_contents` (lines 94-160): Strategy A over the candidate
containers, then — only when it produced nothing — Strategy B over the text
nodes. -/
def extract_table_of_contents (titleMap : Str → Option Str)
    (parents : List (List TocLink)) (textNodes : List TocTextNode) :
    List TableOfContentsItem :=
  let r := scanContainers titleMap parents [] [] false
  if r.1.isEmpty then (scanTextNodes titleMap textNodes r.1 r.2).1 else r.1

/-! ## `_extract_sections` (processor.py lines 276-314)

The two tree queries used per item — `_find_section_start_element` and
`_extract_content_between` — are parameters (`findStart`, `extractBetween`)
over an arbitrary node type `α`; the cleaning step is the concrete Cleaner. -/

/-- The end node for the section at the head of `start_nodes_info`: the start
node of the *next* resolved section, if any (lines 295-298). -/
def sectionEndNode {α : Type} : List (TableOfContentsItem × α) → Option α
  | [] => none
  | (_, n) :: _ => some n

/-- The section loop (lines 294-311): each resolved item's end node is the
next resolved item's start node, and a section is kept only when its cleaned
content is non-empty. -/
def sectionsLoop {α : Type} (extractBetween : α → Option α → Str) :
    List (TableOfContentsItem × α) → List Section
  | [] => []
  | (item, node) :: rest =>
    if (clean_section_content (extractBetween node (sectionEndNode rest))).isEmpty
    then sectionsLoop extractBetween rest
    else ⟨item.item_number, item.title,
        clean_section_content (extractBetween node (sectionEndNode rest))⟩
      :: sectionsLoop extractBetween rest

/-- `_extract_sections` (lines 276-314): resolve a start node per TOC item
(items without one are dropped, lines 283-289) and run the section loop. -/
def extract_sections {α : Type} (findStart : TableOfContentsItem → Option α)
    (extractBetween : α → Option α → Str) (toc : List TableOfContentsItem) :
    List Section :=
  sectionsLoop extractBetween
    (toc.filterMap (fun item => (findStart item).map (fun n => (item, n))))

/-! ## The HTML tree and `_find_section_start_element` (lines 162-218) -/

/-- A sanitized HTML tree node: either a text node (`NavigableString`) or a
tag with its name, `id` attribute, `name` attribute and children. -/
inductive Node where
  | text : Str → Node
  | tag : String → Option Str → Option Str → List Node → Node

def Node.name : Node → String
  | .text _ => ""
  | .tag nm _ _ _ => nm

def Node.isTag : Node → Bool
  | .text _ => false
  | .tag _ _ _ _ => true

/-- `node.get_text(strip=True)` is truthy iff some descendant string carries a
non-whitespace character. -/
def hasVisibleText : Node → Bool
  | .text s => !(stripStr s).isEmpty
  | .tag _ _ _ ch => goL ch
where goL : List Node → Bool
  | [] => false
  | n :: r => hasVisibleText n || goL r

/-- `node.get_text(" ", strip=True)`: the stripped descendant strings, empties
dropped, joined by a single space. -/
def getTextSp (n : Node) : Str :=
  List.intercalate [' '] ((collect n).filter (fun s => !s.isEmpty))
where
  collect : Node → List Str
    | .text s => [stripStr s]
    | .tag _ _ _ ch => goL ch
  goL : List Node → List Str
    | [] => []
    | n :: r => collect n ++ goL r

/-- `soup.find(id=v)`: first tag in document order (preorder) whose `id`
attribute equals `v`, returned together with its following siblings (needed
for `find_next_sibling`).  `inNode` searches inside one node, `goL` a sibling
forest. -/
def findByIdIn (v : Str) : Node → Option (Node × List Node)
  | .text _ => none
  | .tag _ _ _ ch => goL ch
where goL : List Node → Option (Node × List Node)
  | [] => none
  | n :: r =>
    match n with
    | .text _ => goL r
    | .tag _ i _ _ =>
      if i == some v then some (n, r)
      else
        match findByIdIn v n with
        | some p => some p
        | none => goL r

def findById (v : Str) (soup : List Node) : Option (Node × List Node) :=
  findByIdIn.goL v soup

/-- `soup.find(attrs={"name": v})`: same search on the `name` attribute. -/
def findByNameAttrIn (v : Str) : Node → Option (Node × List Node)
  | .text _ => none
  | .tag _ _ _ ch => goL ch
where goL : List Node → Option (Node × List Node)
  | [] => none
  | n :: r =>
    match n with
    | .text _ => goL r
    | .tag _ _ na _ =>
      if na == some v then some (n, r)
      else
        match findByNameAttrIn v n with
        | some p => some p
        | none => goL r

def findByNameAttr (v : Str) (soup : List Node) : Option (Node × List Node) :=
  findByNameAttrIn.goL v soup

/-- An `<a>` tag with no visible text — the nodes skipped by the while loop of
`_find_section_start_element` (lines 172-178). -/
def isEmptyAnchor (n : Node) : Bool := n.name == "a" && !hasVisibleText n

/-- The sibling walk of lines 171-178: `find_next_sibling()` yields successive
sibling *tags* (text siblings are skipped), and empty `<a>` tags are skipped;
the result is the first sibling tag that is not an empty `<a>`. -/
def skipEmptyAnchors : List Node → Option Node
  | [] => none
  | .text _ :: r => skipEmptyAnchors r
  | .tag nm i na ch :: r =>
    if isEmptyAnchor (.tag nm i na ch) then skipEmptyAnchors r
    else some (.tag nm i na ch)

/-- The names scanned by `soup.find_all(["p", "div", "b", "strong", "h1",
"h2", "h3", "h4"])`. -/
def headerNames : List String := ["p", "div", "b", "strong", "h1", "h2", "h3", "h4"]

/-- `re.compile(rf"^\s*{re.escape(item.item_number)}\b", re.IGNORECASE)`
applied with `.match`: optional whitespace, the item number literally
(case-insensitively), then a word boundary. -/
def strictItemMatch (item_number : Str) (text : Str) : Bool :=
  go item_number (text.dropWhile isPySpace)
where
  go : Str → Str → Bool
    | [], rest =>
      -- `\b` after the literal: the previous character is the last of
      -- `item_number` (a word character in every TOC item, e.g. "Item 1A").
      boundaryAfterWord rest
    | p :: ps, c :: cs => p.toLower == c.toLower && go ps cs
    | _ :: _, [] => false

/-- The per-header test of the fallback loop (lines 196-213): on a strict
prefix match accept bold or short headers, promoting an inline
`<b>`/`<strong>` to its enclosing `<p>`/`<div>` (`parent` is
`header.find_parent()`). -/
def checkHeader (item : TableOfContentsItem) (parent : Option Node)
    (header : Node) : Option Node :=
  if headerNames.contains header.name && header.isTag then
    let text := getTextSp header
    if strictItemMatch item.item_number text then
      let is_bold := (header.name == "b" || header.name == "strong") ||
        (match parent with
         | some p => p.name == "b" || p.name == "strong"
         | none => false)
      let is_short := text.length < item.item_number.length + item.title.length + 40
      if is_bold || is_short then
        if (header.name == "b" || header.name == "strong") &&
            (match parent with
             | some p => p.name == "p" || p.name == "div"
             | none => false) then
          match parent with
          | some p => some p
          | none => some header
        else some header
      else none
    else none
  else none

/-- The header-scan fallback of `_find_section_start_element` (lines
189-213): walk the candidate headers in document order (preorder), testing
each with `checkHeader`. -/
def scanHeadersIn (item : TableOfContentsItem) : Node → Option Node
  | .text _ => none
  | .tag nm i na ch => goL (some (.tag nm i na ch)) ch
where goL (parent : Option Node) : List Node → Option Node
  | [] => none
  | n :: r =>
    match checkHeader item parent n with
    | some out => some out
    | none =>
      match scanHeadersIn item n with
      | some out => some out
      | none => goL parent r

def scanHeaders (item : TableOfContentsItem) (soup : List Node) : Option Node :=
  scanHeadersIn.goL item none soup

/-- `_find_section_start_element(soup, item)` (lines 162-218).  When the item
has a `#anchor`, look the element up by `id` then by `name`; an empty `<a>`
target is replaced by its first following sibling tag that is not an empty
`<a>` (falling back to the target itself).  Without a usable anchor (or when
the lookup fails), fall back to the header scan. -/
def find_section_start_element (soup : List Node) (item : TableOfContentsItem) :
    Option Node :=
  match item.anchor_text with
  | some ('#' :: anchor_name) =>
    (match (match findById anchor_name soup with
            | some p => some p
            | none => findByNameAttr anchor_name soup) with
     | some (target, following) =>
       if target.name == "a" && !hasVisibleText target then
         match skipEmptyAnchors following with
         | some sib => some sib
         | none => some target
       else some target
     | none => scanHeaders item soup)
  | _ => scanHeaders item soup

/-! ## `process_document` (processor.py lines 31-64)

The document-level pipeline with its error handling.  `_load_html` catches
its own exceptions and returns `None` on failure (`Option Soup`); every
processing step after it may raise (`Except ε`), and the enclosing
`try/except Exception` of `process_document` turns any such failure into an
empty result.  The steps are parameters so the theorem covers every fault. -/

/-- The `try:` body of `process_document`. -/
def processDocumentBody {Soup ε : Type}
    (load_html : Option Soup)
    (extractToc : Soup → Except ε (List TableOfContentsItem))
    (extractSecs : Soup → List TableOfContentsItem → Except ε (List Section))
    (sectionChunks : Section → Except ε (List DocumentChunk)) :
    Except ε (List DocumentChunk) :=
  match load_html with
  | none => Except.ok []
  | some soup => do
    let toc ← extractToc soup
    if toc.isEmpty then Except.ok []
    else do
      let sections ← extractSecs soup toc
      let chunks ← sections.foldlM
        (fun acc s => do
          let cs ← sectionChunks s
          pure (acc ++ cs)) []
      pure chunks

/-- `process_document` (lines 31-64): the body's result, with any raised
exception caught at the top level and turned into `[]`. -/
def process_document {Soup ε : Type}
    (load_html : Option Soup)
    (extractToc : Soup → Except ε (List TableOfContentsItem))
    (extractSecs : Soup → List TableOfContentsItem → Except ε (List Section))
    (sectionChunks : Section → Except ε (List DocumentChunk)) :
    List DocumentChunk :=
  match processDocumentBody load_html extractToc extractSecs sectionChunks with
  | Except.ok chunks => chunks
  | Except.error _ => []

/-! ## Verification helper definitions -/

/-- The string does not start with a whitespace character. -/
def headNotWs : Str → Bool
  | [] => true
  | c :: _ => !isPySpace c

/-- Somewhere in the string, a newline is followed (through whitespace only)
by another newline — exactly the situation in which `re.split(r"\n\s*\n", ·)`
finds a match and produces more than one paragraph. -/
def hasParaBreak : Str → Bool
  | [] => false
  | c :: r =>
    (c == '\n' && (r.takeWhile isPySpace).any (· == '\n')) || hasParaBreak r

/-- The kept (stripped) lines of `_clean_section_content`, before re-joining:
the cleaner's output is these lines joined by single newlines, stripped and
whitespace-normalised. -/
def cleanKept (text : Str) : List Str :=
  (splitlines (removeSig (removeFLS text))).filterMap keepLine

/-- Every newline in the string is immediately followed by a non-whitespace
character.  This invariant of the cleaner's re-joined output survives
whitespace collapsing, and it implies that `re.split(r"\n\s*\n", ·)` finds no
match. -/
def nlTight : Str → Bool
  | [] => true
  | c :: r => (c != '\n' || (!r.isEmpty && headNotWs r)) && nlTight r

/-- The string does not start with a space or tab. -/
def headNotH : Str → Bool
  | [] => true
  | c :: _ => !isHSpace c

/-- No two adjacent characters are both spaces/tabs — the normal form
produced by `collapseHSpace`. -/
def noHRun : Str → Bool
  | [] => true
  | c :: r => (!isHSpace c || headNotH r) && noHRun r

/-- A container yields at least one in-document hyperlink whose text matches
the item-heading pattern (the condition under which `found_toc_in_links` is
set while scanning it with an empty `seen` set). -/
def containerHasMatch (parent : List TocLink) : Bool :=
  (fragmentLinks parent).any (fun hl => (itemMatch hl.2).isSome)

end SECProcessor

namespace SECProcessor

/-! # Theorems -/

/-! ## C1 / C9: the chunk-size ceiling and force-split termination -/

theorem nextStart_gt (chunk_size overlap start : Nat) :
    start < nextStart chunk_size overlap start := by
  unfold nextStart; split <;> omega

theorem forceSplit_window_le (chunk : Str) (chunk_size overlap : Nat) :
    ∀ start, ∀ w ∈ forceSplitFrom chunk chunk_size overlap start,
      w.length ≤ chunk_size := by
  refine forceSplitFrom.induct chunk chunk_size overlap
    (fun s => ∀ w ∈ forceSplitFrom chunk chunk_size overlap s,
      w.length ≤ chunk_size) ?_ ?_
  · intro x hx ih w hw
    rw [forceSplitFrom] at hw
    simp only [hx, dif_pos, List.mem_cons] at hw
    rcases hw with h | h
    · subst h; exact List.length_take_le _ _
    · exact ih w h
  · intro x hx w hw
    rw [forceSplitFrom] at hw
    simp [hx] at hw

theorem forceSplit_length_le (chunk : Str) (chunk_size overlap : Nat) :
    ∀ start, (forceSplitFrom chunk chunk_size overlap start).length
      ≤ chunk.length - start := by
  refine forceSplitFrom.induct chunk chunk_size overlap
    (fun s => (forceSplitFrom chunk chunk_size overlap s).length
      ≤ chunk.length - s) ?_ ?_
  · intro x hx ih
    rw [forceSplitFrom]
    simp only [hx, dif_pos, List.length_cons]
    have := nextStart_gt chunk_size overlap x
    omega
  · intro x hx
    rw [forceSplitFrom]
    simp [hx]

theorem finalPass_mem_le (chunk_size overlap : Nat) :
    ∀ chunks, ∀ c ∈ finalPass chunk_size overlap chunks,
      10 * c.length ≤ 13 * chunk_size := by
  intro chunks
  induction chunks with
  | nil => intro c hc; simp [finalPass] at hc
  | cons chunk rest ih =>
    intro c hc
    unfold finalPass at hc
    split at hc
    · rcases List.mem_append.mp hc with h | h
      · have := forceSplit_window_le chunk chunk_size overlap 0 c h
        omega
      · exact ih c h
    · rename_i hbig
      split at hc
      · exact ih c hc
      · rcases List.mem_cons.mp hc with h | h
        · subst h; omega
        · exact ih c h

/-- C1: for every input text and every `chunk_size`/`overlap`, each chunk
returned by `_chunk_text` has length at most `chunk_size * 1.3` (stated
exactly: `10 * len ≤ 13 * chunk_size`); oversized greedy chunks are
force-split into windows of at most `chunk_size` characters before being
returned. -/
theorem chunk_length_bound (text : Str) (chunk_size overlap : Nat) :
    ∀ c ∈ chunk_text text chunk_size overlap, 10 * c.length ≤ 13 * chunk_size := by
  intro c hc
  unfold chunk_text at hc
  split at hc
  · simp at hc
  · exact finalPass_mem_le chunk_size overlap _ c hc

theorem chunk_length_bound_witness :
    "hello world".toList ∈ chunk_text "hello world".toList 1500 200 ∧
      10 * ("hello world".toList).length ≤ 13 * 1500 :=
  ⟨by decide, chunk_length_bound "hello world".toList 1500 200 "hello world".toList (by decide)⟩

/-- C9: for every `chunk_size ≥ 1` and *every* overlap (including
`overlap ≥ chunk_size`), the force-split window start strictly increases on
each iteration (by at least one character), and force-splitting any chunk
therefore yields a finite window list — at most one window per remaining
character. -/
theorem force_split_terminates (chunk : Str) (chunk_size overlap : Nat)
    (_h : 1 ≤ chunk_size) :
    (∀ start, start + 1 ≤ nextStart chunk_size overlap start) ∧
      (∀ start, (forceSplitFrom chunk chunk_size overlap start).length
        ≤ chunk.length - start) :=
  ⟨fun start => nextStart_gt chunk_size overlap start,
   fun start => forceSplit_length_le chunk chunk_size overlap start⟩

theorem force_split_terminates_witness :
    (∀ start, start + 1 ≤ nextStart 3 5 start) ∧
      (∀ start, (forceSplitFrom "abcdefgh".toList 3 5 start).length
        ≤ ("abcdefgh".toList).length - start) :=
  force_split_terminates "abcdefgh".toList 3 5 (by decide)

end SECProcessor

namespace SECProcessor

/-! ## C6: zero-based gap-free chunk ids -/

/-- C6: the `chunk_id`s of the `DocumentChunk`s emitted for one section are
exactly `0, 1, …, N-1` in output order (in particular a single emitted chunk
has `chunk_id = 0`). -/
theorem chunk_id_sequence (chunk_long_items : Bool) (sec : Section)
    (company : Str) (year : Int) (source : Str) :
    (section_to_chunks chunk_long_items sec company year source).map
        (fun c => c.metadata.chunk_id)
      = List.range (section_to_chunks chunk_long_items sec company year source).length := by
  unfold section_to_chunks
  split
  · rfl
  · split
    · rfl
    · rename_i t rest _
      split
      · rfl
      · rw [List.map_map]
        have h1 : (fun c => c.metadata.chunk_id) ∘
            (fun ic => (⟨ic.2, ChunkMetadata.mk company year sec.item_number sec.title ic.1 source⟩ : DocumentChunk))
            = fun (ic : Nat × Str) => ic.1 := rfl
        rw [h1]
        simp [List.enum_map_fst]

/-! ## C4: `process_document` error containment -/

/-- C4: `process_document` never propagates a failure: a load failure, an
empty/failed table-of-contents extraction, and any exception raised by any
later processing step all yield the empty chunk list.  The processing steps
are universally quantified, so this covers every fault they can produce. -/
theorem process_document_error_containment {Soup ε : Type}
    (load_html : Option Soup)
    (extractToc : Soup → Except ε (List TableOfContentsItem))
    (extractSecs : Soup → List TableOfContentsItem → Except ε (List Section))
    (sectionChunks : Section → Except ε (List DocumentChunk)) :
    (load_html = none →
      process_document load_html extractToc extractSecs sectionChunks = []) ∧
    (∀ soup e, load_html = some soup → extractToc soup = Except.error e →
      process_document load_html extractToc extractSecs sectionChunks = []) ∧
    (∀ soup, load_html = some soup → extractToc soup = Except.ok [] →
      process_document load_html extractToc extractSecs sectionChunks = []) ∧
    (∀ e, processDocumentBody load_html extractToc extractSecs sectionChunks
        = Except.error e →
      process_document load_html extractToc extractSecs sectionChunks = []) := by
  refine ⟨?_, ?_, ?_, ?_⟩
  · intro h; subst h; rfl
  · intro soup e hl he
    subst hl
    simp [process_document, processDocumentBody, he, Bind.bind, Except.bind]
  · intro soup hl he
    subst hl
    simp [process_document, processDocumentBody, he, Bind.bind, Except.bind]
  · intro e hb
    simp [process_document, hb]

theorem process_document_error_containment_witness :
    @process_document Unit Unit none (fun _ => Except.ok [])
      (fun _ _ => Except.ok []) (fun _ => Except.ok []) = [] :=
  (process_document_error_containment none (fun _ => Except.ok [])
    (fun _ _ => Except.ok []) (fun _ => Except.ok [])).1 rfl

end SECProcessor

namespace SECProcessor

/-! ## C2: the single-chunk output policy -/

/-- C2 counterexample: a section whose content uses a `"\n \n"` paragraph
separator is chunked into exactly one chunk, and `_section_to_chunks` emits
that *post-paragraph-split* chunk (paragraphs re-joined with `"\n\n"`), not
the original section content — the opposite of the claimed policy. -/
theorem single_chunk_text_cex :
    (section_to_chunks true
        ⟨"Item 1A".toList, "Risk Factors".toList, "aaaaaaaaaaaa\n \nbbbbbbbbbbbb".toList⟩
        "ACME".toList 2024 "f.htm".toList).map (fun c => c.text)
      = ["aaaaaaaaaaaa\n\nbbbbbbbbbbbb".toList] ∧
    ("aaaaaaaaaaaa\n\nbbbbbbbbbbbb".toList : Str)
      ≠ "aaaaaaaaaaaa\n \nbbbbbbbbbbbb".toList := by
  exact ⟨rfl, by decide⟩

/-- C2 as amended: when `_chunk_text` returns exactly one chunk (whether or
not chunking is enabled), the single emitted `DocumentChunk` has
`chunk_id = 0` and carries that post-split chunk `text_chunks[0]`; the
original `section.content` is used instead only when chunking is disabled
and the text split into several chunks. -/
theorem single_chunk_output_policy (sec : Section) (company : Str) (year : Int)
    (source : Str) :
    (∀ (chunk_long_items : Bool) t,
      chunk_text sec.content 1500 200 = [t] →
      section_to_chunks chunk_long_items sec company year source
        = [⟨t, ChunkMetadata.mk company year sec.item_number sec.title 0 source⟩]) ∧
    (∀ t1 t2 ts,
      chunk_text sec.content 1500 200 = t1 :: t2 :: ts →
      section_to_chunks false sec company year source
        = [⟨sec.content, ChunkMetadata.mk company year sec.item_number sec.title 0 source⟩]) := by
  have hne : ∀ t ts, chunk_text sec.content 1500 200 = t :: ts →
      sec.content.isEmpty = false := by
    intro t ts h
    cases hh : sec.content.isEmpty
    · rfl
    · rw [chunk_text, if_pos hh] at h
      exact absurd h (by simp)
  constructor
  · intro cli t h
    unfold section_to_chunks
    rw [hne t [] h, h]
    simp
  · intro t1 t2 ts h
    unfold section_to_chunks
    rw [hne t1 (t2 :: ts) h, h]
    simp

theorem single_chunk_output_policy_witness :
    chunk_text ("aaaaaaaaaaaa\n \nbbbbbbbbbbbb".toList) 1500 200
        = ["aaaaaaaaaaaa\n\nbbbbbbbbbbbb".toList] ∧
      section_to_chunks true
          ⟨"Item 1A".toList, "Risk Factors".toList, "aaaaaaaaaaaa\n \nbbbbbbbbbbbb".toList⟩
          "ACME".toList 2024 "src.htm".toList
        = [⟨"aaaaaaaaaaaa\n\nbbbbbbbbbbbb".toList,
            ChunkMetadata.mk "ACME".toList 2024 "Item 1A".toList "Risk Factors".toList 0 "src.htm".toList⟩] :=
  ⟨rfl, (single_chunk_output_policy
      ⟨"Item 1A".toList, "Risk Factors".toList, "aaaaaaaaaaaa\n \nbbbbbbbbbbbb".toList⟩
      "ACME".toList 2024 "src.htm".toList).1 true
      "aaaaaaaaaaaa\n\nbbbbbbbbbbbb".toList rfl⟩

end SECProcessor

namespace SECProcessor

/-! ## Cleaner structure lemmas (towards C3 and C10) -/

theorem itemMatch_nil : itemMatch [] = none := rfl

theorem headNotWs_dropWhile (s : Str) :
    headNotWs (s.dropWhile isPySpace) = true := by
  induction s with
  | nil => rfl
  | cons c r ih =>
    by_cases h : isPySpace c
    · simpa [List.dropWhile_cons, h] using ih
    · simp [List.dropWhile_cons, h, headNotWs]

theorem headNotWs_reverse_dropWhile_reverse {l : Str}
    (h : headNotWs l = true) :
    headNotWs ((l.reverse.dropWhile isPySpace).reverse) = true := by
  match l with
  | [] => rfl
  | c :: r =>
    have hc : isPySpace c = false := by
      simpa [headNotWs] using h
    rw [List.reverse_cons, List.dropWhile_append]
    split
    · simp [List.dropWhile_cons, hc, headNotWs]
    · rw [List.reverse_append]
      simp [headNotWs, hc]

theorem stripStr_headNotWs (s : Str) : headNotWs (stripStr s) = true :=
  headNotWs_reverse_dropWhile_reverse (headNotWs_dropWhile s)

theorem stripStr_rev_headNotWs (s : Str) :
    headNotWs (stripStr s).reverse = true := by
  unfold stripStr
  rw [List.reverse_reverse]
  exact headNotWs_dropWhile _

theorem mem_stripStr {c : Char} {s : Str} (h : c ∈ stripStr s) : c ∈ s := by
  unfold stripStr at h
  rw [List.mem_reverse] at h
  have h1 := (List.dropWhile_sublist (l := (s.dropWhile isPySpace).reverse)
    (p := isPySpace)).mem h
  rw [List.mem_reverse] at h1
  exact (List.dropWhile_sublist (l := s) (p := isPySpace)).mem h1

theorem headNotWs_of_dropWhile_eq {s : Str} (h : headNotWs s = true) :
    s.dropWhile isPySpace = s := by
  match s with
  | [] => rfl
  | c :: r =>
    have hc : isPySpace c = false := by simpa [headNotWs] using h
    simp [List.dropWhile_cons, hc]

/-- A string that neither starts nor ends with whitespace is already
stripped. -/
theorem stripStr_noop {s : Str} (h1 : headNotWs s = true)
    (h2 : headNotWs s.reverse = true) : stripStr s = s := by
  unfold stripStr
  rw [headNotWs_of_dropWhile_eq h1, headNotWs_of_dropWhile_eq h2,
    List.reverse_reverse]

theorem keepLine_eq_some {raw l : Str} (h : keepLine raw = some l) :
    l = stripStr raw ∧ l ≠ [] := by
  simp only [keepLine] at h
  split at h
  · rename_i hcond
    have hl : stripStr raw = l := Option.some.inj h
    refine ⟨hl.symm, ?_⟩
    intro hnil
    rw [hl, hnil] at hcond
    simp [itemMatch_nil] at hcond
  · exact absurd h (by simp)

end SECProcessor

namespace SECProcessor

/-! ### splitlines and intercalate -/

theorem splitlinesAux_nl (cur r : Str) :
    splitlinesAux cur ('\n' :: r)
      = cur.reverse :: (if r.isEmpty then [] else splitlinesAux [] r) := rfl

theorem splitlinesAux_break {c : Char} (cur r : Str)
    (hc : isLineBreak c = true)
    (hguard : ∀ r₁, c = '\r' → r = '\n' :: r₁ → False) :
    splitlinesAux cur (c :: r)
      = cur.reverse :: (if r.isEmpty then [] else splitlinesAux [] r) := by
  rw [splitlinesAux.eq_def]
  split
  · rename_i heq
    exact absurd heq (by simp)
  · rename_i hg heq
    obtain ⟨h1, h2⟩ := List.cons.inj heq
    exact (hguard hg h1 h2).elim
  · rename_i hg heq
    obtain ⟨h1, h2⟩ := List.cons.inj heq
    subst h1; subst h2
    rw [hc]
    simp

theorem splitlinesAux_cons_nb {c : Char} (hc : isLineBreak c = false)
    (cur r : Str) : splitlinesAux cur (c :: r) = splitlinesAux (c :: cur) r := by
  rw [splitlinesAux.eq_def]
  split
  · rename_i heq
    exact absurd heq (by simp)
  · rename_i hg heq
    obtain ⟨h1, h2⟩ := List.cons.inj heq
    rw [h1] at hc
    simp [isLineBreak] at hc
  · rename_i hg heq
    obtain ⟨h1, h2⟩ := List.cons.inj heq
    subst h1; subst h2
    rw [hc]
    simp

theorem splitlinesAux_no_break :
    ∀ cur s, (∀ c ∈ cur, isLineBreak c = false) →
      ∀ l ∈ splitlinesAux cur s, ∀ c ∈ l, isLineBreak c = false := by
  intro cur s
  induction cur, s using splitlinesAux.induct with
  | case1 cur =>
    intro hcur l hl c hcl
    simp only [splitlinesAux, List.mem_singleton] at hl
    exact hcur c (by rw [← List.mem_reverse, ← hl]; exact hcl)
  | case2 cur r ih =>
    intro hcur l hl c hcl
    rw [show splitlinesAux cur ('\r' :: '\n' :: r)
        = cur.reverse :: (if r.isEmpty then [] else splitlinesAux [] r) from rfl] at hl
    rcases List.mem_cons.mp hl with h | h
    · exact hcur c (by rw [← List.mem_reverse, ← h]; exact hcl)
    · split at h
      · simp at h
      · exact ih (by simp) l h c hcl
  | case3 cur c' r hguard hbreak ih =>
    intro hcur l hl c hcl
    rw [splitlinesAux_break cur r hbreak (fun r₁ h1 h2 => hguard r₁ h1 h2)] at hl
    rcases List.mem_cons.mp hl with h | h
    · exact hcur c (by rw [← List.mem_reverse, ← h]; exact hcl)
    · split at h
      · simp at h
      · exact ih (by simp) l h c hcl
  | case4 cur c' r hguard hnb ih =>
    intro hcur l hl c hcl
    rw [splitlinesAux_cons_nb (Bool.not_eq_true _ ▸ hnb) cur r] at hl
    refine ih ?_ l hl c hcl
    intro x hx
    rcases List.mem_cons.mp hx with h | h
    · subst h; exact Bool.not_eq_true _ ▸ hnb
    · exact hcur x h

theorem splitlines_no_break (s : Str) :
    ∀ l ∈ splitlines s, ∀ c ∈ l, isLineBreak c = false := by
  match s with
  | [] => intro l hl; simp [splitlines] at hl
  | c :: r => exact splitlinesAux_no_break [] (c :: r) (by simp)

theorem intercalate_cons₂ (x y : Str) (zs : List Str) :
    List.intercalate ['\n'] (x :: y :: zs)
      = x ++ '\n' :: List.intercalate ['\n'] (y :: zs) := by
  simp [List.intercalate, List.intersperse_cons_cons]

theorem intercalate_singleton (x : Str) : List.intercalate ['\n'] [x] = x := by
  simp [List.intercalate]

theorem intercalate_ne_nil {x : Str} (hx : x ≠ []) (zs : List Str) :
    List.intercalate ['\n'] (x :: zs) ≠ [] := by
  match zs with
  | [] => rw [intercalate_singleton]; exact hx
  | y :: zs' =>
    rw [intercalate_cons₂]
    simp [hx]

theorem splitlinesAux_append {a : Str} (ha : ∀ c ∈ a, isLineBreak c = false) :
    ∀ cur s, splitlinesAux cur (a ++ s) = splitlinesAux (a.reverse ++ cur) s := by
  induction a with
  | nil => intro cur s; simp
  | cons c a' ih =>
    intro cur s
    have hc : isLineBreak c = false := ha c (by simp)
    rw [List.cons_append, splitlinesAux_cons_nb hc,
      ih (fun x hx => ha x (by simp [hx])) (c :: cur) s]
    congr 1
    simp

theorem splitlines_ne_nil {s : Str} (hs : s ≠ []) :
    splitlines s = splitlinesAux [] s := by
  match s with
  | [] => exact absurd rfl hs
  | c :: r => rfl

theorem splitlines_intercalate :
    ∀ ls : List Str, (∀ l ∈ ls, l ≠ [] ∧ ∀ c ∈ l, isLineBreak c = false) →
      splitlines (List.intercalate ['\n'] ls) = ls := by
  intro ls
  induction ls with
  | nil => intro _; rfl
  | cons l ls' ih =>
    intro h
    obtain ⟨hl, hlb⟩ := h l (by simp)
    match ls' with
    | [] =>
      rw [intercalate_singleton, splitlines_ne_nil hl,
        show l = l ++ ([] : Str) by simp, splitlinesAux_append hlb]
      simp [splitlinesAux]
    | l₂ :: ls'' =>
      obtain ⟨hl₂, _⟩ := h l₂ (by simp)
      have hrest : List.intercalate ['\n'] (l₂ :: ls'') ≠ [] :=
        intercalate_ne_nil hl₂ ls''
      rw [intercalate_cons₂, splitlines_ne_nil (by simp [hl]),
        splitlinesAux_append hlb, splitlinesAux_nl,
        if_neg (by simpa using hrest),
        ← splitlines_ne_nil hrest, ih (fun x hx => h x (by simp [hx]))]
      simp

end SECProcessor

namespace SECProcessor

/-! ### nlTight, paragraph splitting and blank-line collapsing -/

theorem headNotWs_append_left {a : Str} (ha : a ≠ []) (b : Str) :
    headNotWs (a ++ b) = headNotWs a := by
  match a with
  | [] => exact absurd rfl ha
  | c :: r => rfl

theorem takeWhile_nil_of_headNotWs {s : Str} (h : headNotWs s = true) :
    s.takeWhile isPySpace = [] := by
  match s with
  | [] => rfl
  | c :: r =>
    have : isPySpace c = false := by simpa [headNotWs] using h
    simp [List.takeWhile_cons, this]

theorem nlTight_of_no_nl {l : Str} (h : ∀ x ∈ l, x ≠ '\n') :
    nlTight l = true := by
  induction l with
  | nil => rfl
  | cons c r ih =>
    have hc : c ≠ '\n' := h c (by simp)
    simp only [nlTight, Bool.and_eq_true]
    exact ⟨by simp [hc], ih (fun x hx => h x (by simp [hx]))⟩

theorem nlTight_append_nb {a : Str} (ha : ∀ x ∈ a, x ≠ '\n') (s : Str) :
    nlTight (a ++ s) = nlTight s := by
  induction a with
  | nil => rfl
  | cons c a' ih =>
    have hc : c ≠ '\n' := ha c (by simp)
    rw [List.cons_append]
    simp only [nlTight]
    rw [ih (fun x hx => ha x (by simp [hx]))]
    simp [hc]

theorem intercalate_headNotWs {ls : List Str}
    (h : ∀ l ∈ ls, l ≠ [] ∧ headNotWs l = true) :
    headNotWs (List.intercalate ['\n'] ls) = true := by
  match ls with
  | [] => rfl
  | l :: ls' =>
    obtain ⟨hl, hh⟩ := h l (by simp)
    match ls' with
    | [] => rw [intercalate_singleton]; exact hh
    | l₂ :: ls'' =>
      rw [intercalate_cons₂, headNotWs_append_left hl]
      exact hh

theorem intercalate_rev_headNotWs :
    ∀ ls : List Str, (∀ l ∈ ls, l ≠ [] ∧ headNotWs l.reverse = true) →
    headNotWs (List.intercalate ['\n'] ls).reverse = true := by
  intro ls
  induction ls with
  | nil => intro _; rfl
  | cons l ls' ih =>
    intro h
    obtain ⟨hl, hh⟩ := h l (by simp)
    match ls' with
    | [] => rw [intercalate_singleton]; exact hh
    | l₂ :: ls'' =>
      obtain ⟨hl₂, _⟩ := h l₂ (by simp)
      have hrest := intercalate_ne_nil hl₂ ls''
      rw [intercalate_cons₂, List.reverse_append, List.reverse_cons,
        List.append_assoc, headNotWs_append_left (by simpa using hrest)]
      exact ih (fun x hx => h x (by simp [hx]))

theorem nlTight_intercalate :
    ∀ ls : List Str,
      (∀ l ∈ ls, l ≠ [] ∧ headNotWs l = true ∧ ∀ x ∈ l, x ≠ '\n') →
      nlTight (List.intercalate ['\n'] ls) = true := by
  intro ls
  induction ls with
  | nil => intro _; rfl
  | cons l ls' ih =>
    intro h
    obtain ⟨hl, hh, hnl⟩ := h l (by simp)
    match ls' with
    | [] => rw [intercalate_singleton]; exact nlTight_of_no_nl hnl
    | l₂ :: ls'' =>
      obtain ⟨hl₂, hh₂, _⟩ := h l₂ (by simp)
      have hrest := intercalate_ne_nil hl₂ ls''
      rw [intercalate_cons₂, nlTight_append_nb hnl]
      simp only [nlTight, Bool.and_eq_true]
      refine ⟨?_, ih (fun x hx => h x (by simp [hx]))⟩
      have h1 : headNotWs (List.intercalate ['\n'] (l₂ :: ls'')) = true :=
        intercalate_headNotWs (fun x hx => ⟨(h x (by simp [hx])).1, (h x (by simp [hx])).2.1⟩)
      simp [hrest, h1]

theorem nlTight_hasParaBreak {s : Str} (h : nlTight s = true) :
    hasParaBreak s = false := by
  induction s with
  | nil => rfl
  | cons c r ih =>
    simp only [nlTight, Bool.and_eq_true] at h
    obtain ⟨h1, h2⟩ := h
    simp only [hasParaBreak, Bool.or_eq_false_iff]
    refine ⟨?_, ih h2⟩
    by_cases hc : c = '\n'
    · subst hc
      simp only [bne_self_eq_false, Bool.false_or, Bool.and_eq_true] at h1
      obtain ⟨hne, hhw⟩ := h1
      have : headNotWs r = true := hhw
      rw [takeWhile_nil_of_headNotWs this]
      simp
    · simp [hc]

theorem lastNlIdx_none {l : Str} (h : l.any (· == '\n') = false) :
    lastNlIdx l = none := by
  induction l with
  | nil => rfl
  | cons c r ih =>
    simp only [List.any_cons, Bool.or_eq_false_iff] at h
    simp [lastNlIdx, ih h.2, h.1]

theorem paraSplitAux_noBreak :
    ∀ fuel cur s, hasParaBreak s = false →
      paraSplitAux fuel cur s = [cur.reverse ++ s] := by
  intro fuel cur s
  induction fuel, cur, s using paraSplitAux.induct with
  | case1 cur s => intro _; rfl
  | case2 n cur => intro _; simp [paraSplitAux]
  | case3 fuel cur c r hc i hidx ih =>
    intro h
    rw [show c = '\n' from by simpa using hc] at h
    simp only [hasParaBreak, Bool.or_eq_false_iff, bne_self_eq_false,
      Bool.false_or, Bool.and_eq_false_iff] at h
    rcases h.1 with h1 | h1
    · simp at h1
    · rw [lastNlIdx_none h1] at hidx
      exact absurd hidx (by simp)
  | case4 fuel cur c r hc hidx ih =>
    intro h
    have hc' : c = '\n' := by simpa using hc
    subst hc'
    simp only [hasParaBreak, Bool.or_eq_false_iff] at h
    rw [show paraSplitAux (fuel + 1) cur ('\n' :: r)
        = paraSplitAux fuel ('\n' :: cur) r from by
      simp [paraSplitAux, hidx]]
    rw [ih h.2]
    simp
  | case5 fuel cur c r hc ih =>
    intro h
    simp only [hasParaBreak, Bool.or_eq_false_iff] at h
    rw [show paraSplitAux (fuel + 1) cur (c :: r)
        = paraSplitAux fuel (c :: cur) r from by
      simp [paraSplitAux, hc]]
    rw [ih h.2]
    simp

theorem paraSplit_of_noBreak {s : Str} (h : hasParaBreak s = false) :
    paraSplit s = [s] := by
  unfold paraSplit
  rw [paraSplitAux_noBreak s.length [] s h]
  simp

theorem collapseBlankAux_noop :
    ∀ fuel s, nlTight s = true → collapseBlankAux fuel s = s := by
  intro fuel
  induction fuel with
  | zero => intro s _; rfl
  | succ n ih =>
    intro s h
    match s with
    | [] => rfl
    | c :: r =>
      simp only [nlTight, Bool.and_eq_true] at h
      obtain ⟨h1, h2⟩ := h
      by_cases hc : c = '\n'
      · subst hc
        simp only [bne_self_eq_false, Bool.false_or, Bool.and_eq_true] at h1
        have hr : r.takeWhile (· == '\n') = [] := by
          match r with
          | [] => rfl
          | d :: r' =>
            have hd : isPySpace d = false := by
              have := h1.2
              simpa [headNotWs] using this
            have : (d == '\n') = false := by
              rcases Bool.eq_false_iff.mp hd with _
              by_cases hdn : d = '\n'
              · rw [hdn] at hd; simp [isPySpace] at hd
              · simp [hdn]
            simp [List.takeWhile_cons, this]
        simp only [collapseBlankAux, hr]
        simp [ih r h2]
      · have : (c == '\n') = false := by simp [hc]
        simp only [collapseBlankAux, this]
        simp [hc, ih r h2]

theorem collapseBlank_noop {s : Str} (h : nlTight s = true) :
    collapseBlank s = s :=
  collapseBlankAux_noop s.length s h

end SECProcessor

namespace SECProcessor

/-! ### collapseHSpace -/

theorem isPySpace_of_isHSpace {c : Char} (h : isHSpace c = true) :
    isPySpace c = true := by
  simp only [isHSpace, Bool.or_eq_true, beq_iff_eq] at h
  rcases h with h | h <;> simp [isPySpace, h]

theorem collapseHSpaceAux_nil (f : Nat) : collapseHSpaceAux f [] = [] := by
  cases f <;> rfl

theorem collapseHSpaceAux_ne_nil :
    ∀ f (s : Str), s ≠ [] → collapseHSpaceAux f s ≠ [] := by
  intro f s hs
  match f, s with
  | 0, s => exact hs
  | f + 1, [] => exact absurd rfl hs
  | f + 1, c :: r =>
    simp only [collapseHSpaceAux]
    split
    · split <;> simp
    · simp

theorem headNotH_dropWhile (s : Str) :
    headNotH (s.dropWhile isHSpace) = true := by
  induction s with
  | nil => rfl
  | cons c r ih =>
    by_cases h : isHSpace c
    · simpa [List.dropWhile_cons, h] using ih
    · simp [List.dropWhile_cons, h, headNotH]

theorem takeWhile_h_isEmpty_iff (r : Str) :
    (r.takeWhile isHSpace).isEmpty = headNotH r := by
  match r with
  | [] => rfl
  | c :: r' =>
    by_cases h : isHSpace c
    · simp [List.takeWhile_cons, h, headNotH]
    · simp [List.takeWhile_cons, h, headNotH]

theorem collapseHSpaceAux_headNotH :
    ∀ f (s : Str), headNotH s = true → headNotH (collapseHSpaceAux f s) = true := by
  intro f s h
  match f, s with
  | 0, s => exact h
  | f + 1, [] => exact h
  | f + 1, c :: r =>
    have hc : isHSpace c = false := by simpa [headNotH] using h
    simp only [collapseHSpaceAux, hc]
    simpa [headNotH] using hc

theorem collapseHSpaceAux_headNotWs :
    ∀ f (s : Str), headNotWs s = true → headNotWs (collapseHSpaceAux f s) = true := by
  intro f s h
  match f, s with
  | 0, s => exact h
  | f + 1, [] => exact h
  | f + 1, c :: r =>
    have hcw : isPySpace c = false := by simpa [headNotWs] using h
    have hc : isHSpace c = false := by
      cases hh : isHSpace c
      · rfl
      · rw [isPySpace_of_isHSpace hh] at hcw; exact hcw
    simp only [collapseHSpaceAux, hc]
    simpa [headNotWs] using hcw

theorem mem_collapseHSpaceAux :
    ∀ f (s : Str) c, c ∈ collapseHSpaceAux f s → c ∈ s ∨ c = ' ' := by
  intro f s
  induction f, s using collapseHSpaceAux.induct with
  | case1 s => intro c hc; exact Or.inl hc
  | case2 n => intro c hc; rw [collapseHSpaceAux_nil] at hc; simp at hc
  | case3 fuel c r hc hrun ih =>
    intro x hx
    simp only [collapseHSpaceAux, hc, hrun, if_true] at hx
    rcases List.mem_cons.mp hx with h | h
    · exact Or.inl (h ▸ List.mem_cons_self _ _)
    · rcases ih x h with h' | h'
      · exact Or.inl (List.mem_cons_of_mem _ h')
      · exact Or.inr h'
  | case4 fuel c r hc hrun ih =>
    intro x hx
    simp only [collapseHSpaceAux, hc, hrun, if_false] at hx
    rcases List.mem_cons.mp hx with h | h
    · exact Or.inr h
    · rcases ih x h with h' | h'
      · exact Or.inl (List.mem_cons_of_mem _
          ((List.dropWhile_sublist _).subset h'))
      · exact Or.inr h'
  | case5 fuel c r hc ih =>
    intro x hx
    simp only [collapseHSpaceAux, hc, if_false] at hx
    rcases List.mem_cons.mp hx with h | h
    · exact Or.inl (h ▸ List.mem_cons_self _ _)
    · rcases ih x h with h' | h'
      · exact Or.inl (List.mem_cons_of_mem _ h')
      · exact Or.inr h'

end SECProcessor

namespace SECProcessor

theorem rev_ne_nil {a : Str} (h : a ≠ []) : a.reverse ≠ [] := by
  simpa using h

theorem collapseHSpaceAux_cons_run {c : Char} {r : Str} (hc : isHSpace c = true)
    (hrun : (r.takeWhile isHSpace).isEmpty = false) (f : Nat) :
    collapseHSpaceAux (f + 1) (c :: r)
      = ' ' :: collapseHSpaceAux f (r.dropWhile isHSpace) := by
  simp [collapseHSpaceAux, hc, hrun]

theorem collapseHSpaceAux_cons_single {c : Char} {r : Str}
    (hc : isHSpace c = true) (hrun : (r.takeWhile isHSpace).isEmpty = true)
    (f : Nat) :
    collapseHSpaceAux (f + 1) (c :: r) = c :: collapseHSpaceAux f r := by
  simp [collapseHSpaceAux, hc, hrun]

theorem collapseHSpaceAux_cons_nh {c : Char} {r : Str}
    (hc : isHSpace c = false) (f : Nat) :
    collapseHSpaceAux (f + 1) (c :: r) = c :: collapseHSpaceAux f r := by
  simp [collapseHSpaceAux, hc]

theorem all_hspace_rev_head {r : Str} (hr : r ≠ [])
    (hall : ∀ x ∈ r, isHSpace x = true) : headNotWs r.reverse = false := by
  match hrev : r.reverse with
  | [] => exact absurd (by simpa using hrev) hr
  | y :: ys =>
    have hy : y ∈ r := by
      rw [← List.mem_reverse, hrev]; simp
    simp [headNotWs, isPySpace_of_isHSpace (hall y hy)]

theorem collapseHSpaceAux_rev_headNotWs :
    ∀ f (s : Str), headNotWs s.reverse = true →
      headNotWs (collapseHSpaceAux f s).reverse = true := by
  intro f s
  induction f, s using collapseHSpaceAux.induct with
  | case1 s => intro h; exact h
  | case2 n => intro h; rw [collapseHSpaceAux_nil]; exact h
  | case3 fuel c r hc hrun ih =>
    intro h
    simp only [collapseHSpaceAux, hc, hrun, if_true]
    match r with
    | [] =>
      exact absurd h (by
        simp [headNotWs, isPySpace_of_isHSpace hc])
    | d :: r' =>
      have hY : collapseHSpaceAux fuel (d :: r') ≠ [] :=
        collapseHSpaceAux_ne_nil fuel (d :: r') (by simp)
      rw [List.reverse_cons, headNotWs_append_left (rev_ne_nil hY)]
      refine ih ?_
      rw [List.reverse_cons, headNotWs_append_left (rev_ne_nil (by simp))] at h
      exact h
  | case4 fuel c r hc hrun ih =>
    intro h
    rw [collapseHSpaceAux_cons_run hc ((Bool.not_eq_true _).mp hrun)]
    have hrne : r ≠ [] := by
      intro hr; rw [hr] at hrun; simp at hrun
    by_cases hX : r.dropWhile isHSpace = []
    · refine absurd h ?_
      rw [List.reverse_cons, headNotWs_append_left (rev_ne_nil hrne),
        all_hspace_rev_head hrne (List.dropWhile_eq_nil_iff.mp hX)]
      simp
    · have hY : collapseHSpaceAux fuel (r.dropWhile isHSpace) ≠ [] :=
        collapseHSpaceAux_ne_nil fuel _ hX
      rw [List.reverse_cons, headNotWs_append_left (rev_ne_nil hY)]
      refine ih ?_
      have hsplit : r = r.takeWhile isHSpace ++ r.dropWhile isHSpace :=
        (List.takeWhile_append_dropWhile _ _).symm
      rw [List.reverse_cons, headNotWs_append_left (rev_ne_nil hrne)] at h
      rw [hsplit, List.reverse_append,
        headNotWs_append_left (rev_ne_nil hX)] at h
      exact h
  | case5 fuel c r hc ih =>
    intro h
    rw [collapseHSpaceAux_cons_nh ((Bool.not_eq_true _).mp hc)]
    match r with
    | [] => rw [collapseHSpaceAux_nil]; exact h
    | d :: r' =>
      have hY : collapseHSpaceAux fuel (d :: r') ≠ [] :=
        collapseHSpaceAux_ne_nil fuel (d :: r') (by simp)
      rw [List.reverse_cons, headNotWs_append_left (rev_ne_nil hY)]
      refine ih ?_
      rw [List.reverse_cons, headNotWs_append_left (rev_ne_nil (by simp))] at h
      exact h

theorem nlTight_dropWhile (p : Char → Bool) :
    ∀ s : Str, nlTight s = true → nlTight (s.dropWhile p) = true := by
  intro s
  induction s with
  | nil => intro h; exact h
  | cons c r ih =>
    intro h
    simp only [nlTight, Bool.and_eq_true] at h
    by_cases hp : p c
    · rw [List.dropWhile_cons, if_pos hp]
      exact ih h.2
    · rw [List.dropWhile_cons, if_neg hp]
      simp only [nlTight, Bool.and_eq_true]
      exact h

theorem collapseHSpaceAux_nlTight :
    ∀ f (s : Str), nlTight s = true → nlTight (collapseHSpaceAux f s) = true := by
  intro f s
  induction f, s using collapseHSpaceAux.induct with
  | case1 s => intro h; exact h
  | case2 n => intro h; rw [collapseHSpaceAux_nil]; exact h
  | case3 fuel c r hc hrun ih =>
    intro h
    simp only [nlTight, Bool.and_eq_true] at h
    simp only [collapseHSpaceAux, hc, hrun, if_true]
    simp only [nlTight, Bool.and_eq_true]
    constructor
    · have hcn : c ≠ '\n' := by
        intro hcc; rw [hcc] at hc; simp [isHSpace] at hc
      simp [hcn]
    · exact ih h.2
  | case4 fuel c r hc hrun ih =>
    intro h
    simp only [nlTight, Bool.and_eq_true] at h
    simp only [collapseHSpaceAux, hc, hrun, if_false]
    simp only [nlTight, Bool.and_eq_true]
    refine ⟨by simp, ?_⟩
    exact ih (nlTight_dropWhile isHSpace r h.2)
  | case5 fuel c r hc ih =>
    intro h
    simp only [nlTight, Bool.and_eq_true] at h
    simp only [collapseHSpaceAux, hc, if_false]
    simp only [nlTight, Bool.and_eq_true]
    refine ⟨?_, ih h.2⟩
    by_cases hcn : c = '\n'
    · subst hcn
      rcases h with ⟨h1, _⟩
      simp only [bne_self_eq_false, Bool.false_or, Bool.and_eq_true] at h1
      obtain ⟨hrne', hhw⟩ := h1
      have hrne : r ≠ [] := by
        intro hr; rw [hr] at hrne'; simp at hrne'
      have hY : collapseHSpaceAux fuel r ≠ [] :=
        collapseHSpaceAux_ne_nil fuel r hrne
      have hYh : headNotWs (collapseHSpaceAux fuel r) = true :=
        collapseHSpaceAux_headNotWs fuel r hhw
      simp [hY, hYh]
    · simp [hcn]

theorem collapseHSpaceAux_noHRun :
    ∀ f (s : Str), s.length ≤ f → noHRun (collapseHSpaceAux f s) = true := by
  intro f s
  induction f, s using collapseHSpaceAux.induct with
  | case1 s =>
    intro h
    have : s = [] := List.length_eq_zero.mp (Nat.le_zero.mp h)
    subst this; rfl
  | case2 n => intro _; rw [collapseHSpaceAux_nil]; rfl
  | case3 fuel c r hc hrun ih =>
    intro h
    simp only [collapseHSpaceAux, hc, hrun, if_true]
    simp only [noHRun, Bool.and_eq_true]
    refine ⟨?_, ih (by simpa using h)⟩
    have hr : headNotH r = true := by rw [← takeWhile_h_isEmpty_iff]; exact hrun
    have := collapseHSpaceAux_headNotH fuel r hr
    simp [this]
  | case4 fuel c r hc hrun ih =>
    intro h
    simp only [collapseHSpaceAux, hc, hrun, if_false]
    simp only [noHRun, Bool.and_eq_true]
    have hlen : (r.dropWhile isHSpace).length ≤ fuel := by
      have h1 := (List.dropWhile_sublist (p := isHSpace) (l := r)).length_le
      simp only [List.length_cons] at h
      omega
    refine ⟨?_, ih hlen⟩
    have := collapseHSpaceAux_headNotH fuel (r.dropWhile isHSpace)
      (headNotH_dropWhile r)
    simp [this]
  | case5 fuel c r hc ih =>
    intro h
    simp only [collapseHSpaceAux, hc, if_false]
    simp only [noHRun, Bool.and_eq_true]
    refine ⟨by simp [Bool.eq_false_iff.mpr hc], ih (by simpa using h)⟩

theorem collapseHSpaceAux_noop :
    ∀ f (s : Str), noHRun s = true → collapseHSpaceAux f s = s := by
  intro f
  induction f with
  | zero => intro s _; rfl
  | succ n ih =>
    intro s h
    match s with
    | [] => rfl
    | c :: r =>
      simp only [noHRun, Bool.and_eq_true] at h
      obtain ⟨h1, h2⟩ := h
      by_cases hc : isHSpace c
      · have hr : headNotH r = true := by
          rcases Bool.or_eq_true_iff.mp h1 with h' | h'
          · rw [hc] at h'; simp at h'
          · exact h'
        have : (r.takeWhile isHSpace).isEmpty = true := by
          rw [takeWhile_h_isEmpty_iff]; exact hr
        rw [collapseHSpaceAux_cons_single hc this, ih r h2]
      · rw [collapseHSpaceAux_cons_nh ((Bool.not_eq_true _).mp hc), ih r h2]

end SECProcessor

namespace SECProcessor

theorem collapseHSpaceAux_fuel :
    ∀ n (s : Str) f g, s.length ≤ n → s.length ≤ f → s.length ≤ g →
      collapseHSpaceAux f s = collapseHSpaceAux g s := by
  intro n
  induction n with
  | zero =>
    intro s f g hn _ _
    have : s = [] := List.length_eq_zero.mp (Nat.le_zero.mp hn)
    subst this
    rw [collapseHSpaceAux_nil, collapseHSpaceAux_nil]
  | succ n ih =>
    intro s f g hn hf hg
    match s with
    | [] => rw [collapseHSpaceAux_nil, collapseHSpaceAux_nil]
    | c :: r =>
      simp only [List.length_cons] at hn hf hg
      obtain ⟨f', rfl⟩ : ∃ f', f = f' + 1 := ⟨f - 1, by omega⟩
      obtain ⟨g', rfl⟩ : ∃ g', g = g' + 1 := ⟨g - 1, by omega⟩
      by_cases hc : isHSpace c
      · cases hrun : (r.takeWhile isHSpace).isEmpty
        · rw [collapseHSpaceAux_cons_run hc hrun,
            collapseHSpaceAux_cons_run hc hrun]
          have hlen := (List.dropWhile_sublist (p := isHSpace) (l := r)).length_le
          rw [ih (r.dropWhile isHSpace) f' g' (by omega) (by omega) (by omega)]
        · rw [collapseHSpaceAux_cons_single hc hrun,
            collapseHSpaceAux_cons_single hc hrun,
            ih r f' g' (by omega) (by omega) (by omega)]
      · rw [collapseHSpaceAux_cons_nh ((Bool.not_eq_true _).mp hc),
          collapseHSpaceAux_cons_nh ((Bool.not_eq_true _).mp hc),
          ih r f' g' (by omega) (by omega) (by omega)]

theorem takeWhile_h_append_nl (a b : Str) :
    (a ++ '\n' :: b).takeWhile isHSpace = a.takeWhile isHSpace := by
  induction a with
  | nil => simp [List.takeWhile_cons, isHSpace]
  | cons c a' ih =>
    by_cases hc : isHSpace c
    · simp [List.takeWhile_cons, hc, ih]
    · simp [List.takeWhile_cons, hc]

theorem dropWhile_h_append_nl (a b : Str) :
    (a ++ '\n' :: b).dropWhile isHSpace = a.dropWhile isHSpace ++ '\n' :: b := by
  induction a with
  | nil => simp [List.dropWhile_cons, isHSpace]
  | cons c a' ih =>
    by_cases hc : isHSpace c
    · simp [List.dropWhile_cons, hc, ih]
    · simp [List.dropWhile_cons, hc]

theorem collapseHSpaceAux_append_nl :
    ∀ n (a : Str) (b : Str) f, a.length + 1 + b.length ≤ n →
      a.length + 1 + b.length ≤ f →
      collapseHSpaceAux f (a ++ '\n' :: b)
        = collapseHSpace a ++ '\n' :: collapseHSpace b := by
  intro n
  induction n with
  | zero => intro a b f hn _; omega
  | succ n ih =>
    intro a b f hn hf
    match a with
    | [] =>
      obtain ⟨f', rfl⟩ : ∃ f', f = f' + 1 := ⟨f - 1, by simp at hf; omega⟩
      rw [List.nil_append,
        collapseHSpaceAux_cons_nh (by simp [isHSpace])]
      show '\n' :: collapseHSpaceAux f' b = collapseHSpace [] ++ '\n' :: collapseHSpace b
      rw [show collapseHSpace ([] : Str) = [] from rfl, List.nil_append]
      unfold collapseHSpace
      rw [collapseHSpaceAux_fuel (b.length) b f' b.length (le_refl _)
        (by simp at hf; omega) (le_refl _)]
    | c :: a' =>
      obtain ⟨f', rfl⟩ : ∃ f', f = f' + 1 := ⟨f - 1, by simp at hf; omega⟩
      simp only [List.length_cons] at hn hf
      rw [List.cons_append]
      by_cases hc : isHSpace c
      · cases hrun : (a'.takeWhile isHSpace).isEmpty
        · have hrun' : ((a' ++ '\n' :: b).takeWhile isHSpace).isEmpty = false := by
            rw [takeWhile_h_append_nl]; exact hrun
          rw [collapseHSpaceAux_cons_run hc hrun', dropWhile_h_append_nl]
          have hlen := (List.dropWhile_sublist (p := isHSpace) (l := a')).length_le
          rw [ih (a'.dropWhile isHSpace) b f' (by omega) (by omega)]
          unfold collapseHSpace
          rw [List.length_cons, collapseHSpaceAux_cons_run hc hrun,
            collapseHSpaceAux_fuel a'.length (a'.dropWhile isHSpace) a'.length
              (a'.dropWhile isHSpace).length (by omega) (by omega) (le_refl _)]
          simp
        · have hrun' : ((a' ++ '\n' :: b).takeWhile isHSpace).isEmpty = true := by
            rw [takeWhile_h_append_nl]; exact hrun
          rw [collapseHSpaceAux_cons_single hc hrun',
            ih a' b f' (by omega) (by omega)]
          unfold collapseHSpace
          rw [List.length_cons, collapseHSpaceAux_cons_single hc hrun]
          simp
      · have hcf : isHSpace c = false := (Bool.not_eq_true _).mp hc
        rw [collapseHSpaceAux_cons_nh hcf,
          ih a' b f' (by omega) (by omega)]
        unfold collapseHSpace
        rw [List.length_cons, collapseHSpaceAux_cons_nh hcf]
        simp

end SECProcessor

namespace SECProcessor

theorem collapseHSpace_intercalate :
    ∀ ls : List Str, collapseHSpace (List.intercalate ['\n'] ls)
      = List.intercalate ['\n'] (ls.map collapseHSpace) := by
  intro ls
  induction ls with
  | nil => rfl
  | cons l ls' ih =>
    match ls' with
    | [] => simp [intercalate_singleton]
    | l₂ :: ls'' =>
      rw [intercalate_cons₂]
      have hlen : l.length + 1 + (List.intercalate ['\n'] (l₂ :: ls'')).length
          = (l ++ '\n' :: List.intercalate ['\n'] (l₂ :: ls'')).length := by
        simp [List.length_append]
        omega
      rw [show collapseHSpace (l ++ '\n' :: List.intercalate ['\n'] (l₂ :: ls''))
          = collapseHSpaceAux
              (l ++ '\n' :: List.intercalate ['\n'] (l₂ :: ls'')).length
              (l ++ '\n' :: List.intercalate ['\n'] (l₂ :: ls'')) from rfl]
      rw [collapseHSpaceAux_append_nl
        (l ++ '\n' :: List.intercalate ['\n'] (l₂ :: ls'')).length l
        (List.intercalate ['\n'] (l₂ :: ls'')) _ (by omega) (by omega)]
      rw [ih]
      simp [intercalate_cons₂]

theorem collapseHSpace_idem (s : Str) :
    collapseHSpace (collapseHSpace s) = collapseHSpace s :=
  collapseHSpaceAux_noop _ _ (collapseHSpaceAux_noHRun s.length s (le_refl _))

/-! ### Structure of the cleaner's output -/

theorem cleanKept_facts (t : Str) :
    ∀ l ∈ cleanKept t, l ≠ [] ∧ headNotWs l = true ∧
      headNotWs l.reverse = true ∧ ∀ c ∈ l, isLineBreak c = false := by
  intro l hl
  obtain ⟨raw, hraw, hk⟩ := List.mem_filterMap.mp hl
  obtain ⟨heq, hne⟩ := keepLine_eq_some hk
  subst heq
  refine ⟨hne, stripStr_headNotWs raw, stripStr_rev_headNotWs raw, ?_⟩
  intro c hc
  exact splitlines_no_break _ raw hraw c (mem_stripStr hc)

theorem cleanKept_intercalate_nlTight (t : Str) :
    nlTight (List.intercalate ['\n'] (cleanKept t)) = true := by
  refine nlTight_intercalate _ (fun l hl => ?_)
  have hf := cleanKept_facts t l hl
  refine ⟨hf.1, hf.2.1, fun c hc hcn => ?_⟩
  have := hf.2.2.2 c hc
  rw [hcn] at this
  simp [isLineBreak] at this

theorem clean_eq_collapse (t : Str) :
    clean_section_content t
      = collapseHSpace (List.intercalate ['\n'] (cleanKept t)) := by
  have hfacts := cleanKept_facts t
  have hJhead : headNotWs (List.intercalate ['\n'] (cleanKept t)) = true :=
    intercalate_headNotWs (fun l hl => ⟨(hfacts l hl).1, (hfacts l hl).2.1⟩)
  have hJrev : headNotWs (List.intercalate ['\n'] (cleanKept t)).reverse = true :=
    intercalate_rev_headNotWs _
      (fun l hl => ⟨(hfacts l hl).1, (hfacts l hl).2.2.1⟩)
  show collapseHSpace (collapseBlank (stripStr
    (List.intercalate ['\n'] (cleanKept t)))) = _
  rw [stripStr_noop hJhead hJrev,
    collapseBlank_noop (cleanKept_intercalate_nlTight t)]

theorem nlTight_clean (t : Str) :
    nlTight (clean_section_content t) = true := by
  rw [clean_eq_collapse]
  exact collapseHSpaceAux_nlTight _ _ (cleanKept_intercalate_nlTight t)

theorem clean_lines (t : Str) :
    splitlines (clean_section_content t) = (cleanKept t).map collapseHSpace := by
  rw [clean_eq_collapse, collapseHSpace_intercalate]
  refine splitlines_intercalate _ ?_
  intro l hl
  obtain ⟨k, hk, rfl⟩ := List.mem_map.mp hl
  have hf := cleanKept_facts t k hk
  refine ⟨collapseHSpaceAux_ne_nil _ _ hf.1, ?_⟩
  intro c hc
  rcases mem_collapseHSpaceAux _ _ c hc with h | h
  · exact hf.2.2.2 c h
  · rw [h]; rfl

theorem packParagraphs_singleton_le (chunk_size overlap : Nat) (p : Str) :
    (packParagraphs chunk_size overlap [] 0 [p]).length ≤ 1 := by
  cases hp : (stripStr p).isEmpty
  · rw [show packParagraphs chunk_size overlap [] 0 [p]
        = packParagraphs chunk_size overlap ([] ++ [stripStr p])
            (0 + (stripStr p).length + 0) [] from by
      simp [packParagraphs, hp]]
    simp [packParagraphs]
  · rw [show packParagraphs chunk_size overlap [] 0 [p]
        = packParagraphs chunk_size overlap [] 0 [] from by
      simp [packParagraphs, hp]]
    simp [packParagraphs]

end SECProcessor

namespace SECProcessor

/-! ## C3: the cleaner's output is a single paragraph -/

/-- C3 counterexample: the whitespace-collapsing step runs *after* the line
filter, so a kept line can end up 10 characters or shorter without matching
the item pattern: cleaning `"a" + 9 spaces + "b"` (11 characters, kept)
yields the 3-character line `"a b"`. -/
theorem cleaner_short_line_cex :
    clean_section_content ("a         b".toList) = "a b".toList ∧
      "a b".toList ∈ splitlines (clean_section_content ("a         b".toList)) ∧
      (stripStr "a b".toList).length ≤ 10 ∧
      itemMatch (stripStr "a b".toList) = none := by
  refine ⟨rfl, ?_, by decide, by decide⟩
  rw [show clean_section_content ("a         b".toList) = "a b".toList from rfl]
  decide

/-- C3 as amended: the cleaner's output contains no empty line (though lines
of length ≤ 10 can occur, see `cleaner_short_line_cex`); consequently
splitting it on blank-line boundaries in the chunker always yields exactly
one paragraph, and greedy packing then emits at most one chunk — so
multi-chunk sections can only arise from the force-split path. -/
theorem cleaner_single_paragraph (t : Str) :
    (∀ l ∈ splitlines (clean_section_content t), l ≠ []) ∧
    (paraSplit (clean_section_content t)).length = 1 ∧
    (∀ chunk_size overlap : Nat,
      (packParagraphs chunk_size overlap [] 0
        (paraSplit (clean_section_content t))).length ≤ 1) := by
  have hpb : hasParaBreak (clean_section_content t) = false :=
    nlTight_hasParaBreak (nlTight_clean t)
  refine ⟨?_, ?_, ?_⟩
  · intro l hl
    rw [clean_lines t] at hl
    obtain ⟨k, hk, rfl⟩ := List.mem_map.mp hl
    exact collapseHSpaceAux_ne_nil _ _ (cleanKept_facts t k hk).1
  · rw [paraSplit_of_noBreak hpb]
    rfl
  · intro chunk_size overlap
    rw [paraSplit_of_noBreak hpb]
    exact packParagraphs_singleton_le chunk_size overlap _

/-! ## C10: cleaner idempotence -/

/-- C10 counterexample: the cleaner is not idempotent.  Cleaning
`"a" + 9 spaces + "b"` keeps the line (11 characters) and then collapses it
to `"a b"`; cleaning a second time drops that 3-character line entirely. -/
theorem cleaner_not_idempotent_cex :
    clean_section_content (clean_section_content ("a         b".toList))
      ≠ clean_section_content ("a         b".toList) := by
  rw [show clean_section_content ("a         b".toList) = "a b".toList from rfl]
  decide

theorem filterMap_keepLine_self {ls : List Str}
    (h : ∀ l ∈ ls, keepLine l = some l) : ls.filterMap keepLine = ls := by
  induction ls with
  | nil => rfl
  | cons l ls' ih =>
    rw [List.filterMap_cons, h l (by simp), ih (fun x hx => h x (by simp [hx]))]

/-- C10 as amended: running the cleaner twice yields the same text as running
it once, *provided* the first pass's output is stable for the three
re-scanned ingredients: no new forward-looking-statements match, no new
signature match, and every output line still passes the length/pattern line
filter.  (The counterexample shows the unconditional claim fails when
whitespace collapsing shortens a kept line to ≤ 10 characters.) -/
theorem cleaner_idempotent_on_stable (t : Str)
    (h1 : removeFLS (clean_section_content t) = clean_section_content t)
    (h2 : removeSig (clean_section_content t) = clean_section_content t)
    (h3 : ∀ l ∈ splitlines (clean_section_content t), keepLine l = some l) :
    clean_section_content (clean_section_content t)
      = clean_section_content t := by
  have hlines := clean_lines t
  -- the kept lines of the second pass are exactly the lines of the output
  have hkept2 : cleanKept (clean_section_content t)
      = splitlines (clean_section_content t) := by
    unfold cleanKept
    rw [h1, h2]
    exact filterMap_keepLine_self h3
  -- the output re-joined from its own lines is the output itself
  have hjoin : List.intercalate ['\n'] (splitlines (clean_section_content t))
      = clean_section_content t := by
    rw [hlines, ← collapseHSpace_intercalate, ← clean_eq_collapse]
  -- head/tail and newline structure of the output
  have hhead : headNotWs (clean_section_content t) = true := by
    rw [clean_eq_collapse]
    exact collapseHSpaceAux_headNotWs _ _
      (intercalate_headNotWs (fun l hl =>
        ⟨(cleanKept_facts t l hl).1, (cleanKept_facts t l hl).2.1⟩))
  have hrev : headNotWs (clean_section_content t).reverse = true := by
    rw [clean_eq_collapse]
    exact collapseHSpaceAux_rev_headNotWs _ _
      (intercalate_rev_headNotWs _ (fun l hl =>
        ⟨(cleanKept_facts t l hl).1, (cleanKept_facts t l hl).2.2.1⟩))
  show collapseHSpace (collapseBlank (stripStr (List.intercalate ['\n']
    (cleanKept (clean_section_content t))))) = _
  rw [hkept2, hjoin, stripStr_noop hhead hrev,
    collapseBlank_noop (nlTight_clean t), clean_eq_collapse t,
    collapseHSpace_idem]

theorem cleaner_idempotent_on_stable_witness :
    (removeFLS (clean_section_content "hello world once".toList)
        = clean_section_content "hello world once".toList) ∧
      (removeSig (clean_section_content "hello world once".toList)
        = clean_section_content "hello world once".toList) ∧
      clean_section_content (clean_section_content "hello world once".toList)
        = clean_section_content "hello world once".toList :=
  ⟨rfl, rfl, cleaner_idempotent_on_stable "hello world once".toList rfl rfl
    (by decide)⟩

end SECProcessor

namespace SECProcessor

/-! ## C5 / C8: table-of-contents extraction -/

/-- The dedup invariant carried by the extraction loops: the collected items
have pairwise distinct lowercased item numbers, all recorded in `seen`. -/
theorem processLinks_inv (titleMap : Str → Option Str) :
    ∀ (links : List (Str × Str)) items seen flag,
      (items.map (fun i => lowerStr i.item_number)).Nodup →
      (∀ x ∈ items.map (fun i => lowerStr i.item_number), x ∈ seen) →
      (((processLinks titleMap links items seen flag).1.map
          (fun i => lowerStr i.item_number)).Nodup ∧
        ∀ x ∈ (processLinks titleMap links items seen flag).1.map
          (fun i => lowerStr i.item_number),
          x ∈ (processLinks titleMap links items seen flag).2.1) := by
  intro links
  induction links with
  | nil => intro items seen flag h1 h2; exact ⟨h1, h2⟩
  | cons hl rest ih =>
    intro items seen flag h1 h2
    obtain ⟨href, txt⟩ := hl
    show (((match itemMatch txt with
      | some grp => _
      | none => _ : List TableOfContentsItem × List Str × Bool)).1.map _).Nodup ∧ _
    match hm : itemMatch txt with
    | none =>
      simp only [processLinks, hm]
      exact ih items seen flag h1 h2
    | some grp =>
      simp only [processLinks, hm]
      by_cases hseen : lowerStr (itemNumberOf grp) ∈ seen
      · rw [if_pos hseen]
        exact ih items seen flag h1 h2
      · rw [if_neg hseen]
        refine ih _ _ true ?_ ?_
        · rw [List.map_append, List.nodup_append]
          refine ⟨h1, by simp, ?_⟩
          intro x hx
          simp only [List.map_cons, List.map_nil, List.mem_singleton]
          intro hx2
          exact hseen (hx2 ▸ h2 x hx)
        · intro x hx
          rw [List.map_append] at hx
          rcases List.mem_append.mp hx with h | h
          · exact List.mem_append_left _ (h2 x h)
          · simp only [List.map_cons, List.map_nil, List.mem_singleton] at h
            subst h
            exact List.mem_append_right _ (by simp)

theorem scanContainers_inv (titleMap : Str → Option Str) :
    ∀ (parents : List (List TocLink)) items seen flag,
      (items.map (fun i => lowerStr i.item_number)).Nodup →
      (∀ x ∈ items.map (fun i => lowerStr i.item_number), x ∈ seen) →
      (((scanContainers titleMap parents items seen flag).1.map
          (fun i => lowerStr i.item_number)).Nodup ∧
        ∀ x ∈ (scanContainers titleMap parents items seen flag).1.map
          (fun i => lowerStr i.item_number),
          x ∈ (scanContainers titleMap parents items seen flag).2) := by
  intro parents
  induction parents with
  | nil => intro items seen flag h1 h2; exact ⟨h1, h2⟩
  | cons parent rest ih =>
    intro items seen flag h1 h2
    show ((if (fragmentLinks parent).isEmpty then _ else _ :
      List TableOfContentsItem × List Str).1.map _).Nodup ∧ _
    by_cases hempty : (fragmentLinks parent).isEmpty
    · simp only [scanContainers, hempty, if_true]
      exact ih items seen flag h1 h2
    · simp only [scanContainers, hempty, if_false]
      have hp := processLinks_inv titleMap (fragmentLinks parent) items seen flag h1 h2
      by_cases hflag : (processLinks titleMap (fragmentLinks parent) items seen flag).2.2
      · rw [if_pos hflag]
        exact hp
      · rw [if_neg hflag]
        exact ih _ _ _ hp.1 hp.2

theorem scanTextNodes_inv (titleMap : Str → Option Str) :
    ∀ (nodes : List TocTextNode) items seen,
      (items.map (fun i => lowerStr i.item_number)).Nodup →
      (∀ x ∈ items.map (fun i => lowerStr i.item_number), x ∈ seen) →
      ((scanTextNodes titleMap nodes items seen).1.map
          (fun i => lowerStr i.item_number)).Nodup := by
  intro nodes
  induction nodes with
  | nil => intro items seen h1 _; exact h1
  | cons n rest ih =>
    intro items seen h1 h2
    by_cases hskip : (n.parentName == "script" || n.parentName == "style") = true
    · rw [show scanTextNodes titleMap (n :: rest) items seen
          = scanTextNodes titleMap rest items seen from by
        simp [scanTextNodes, hskip]]
      exact ih items seen h1 h2
    · have hskipf := (Bool.not_eq_true _).mp hskip
      match hm : itemMatch (stripStr n.text) with
      | none =>
        rw [show scanTextNodes titleMap (n :: rest) items seen
            = scanTextNodes titleMap rest items seen from by
          simp [scanTextNodes, hskipf, hm]]
        exact ih items seen h1 h2
      | some grp =>
        by_cases hcond : lowerStr (itemNumberOf grp) ∉ seen ∧
            (itemNumberOf grp).length < 20
        · rw [show scanTextNodes titleMap (n :: rest) items seen
              = scanTextNodes titleMap rest
                (items ++ [⟨itemNumberOf grp,
                  get_item_title titleMap (itemNumberOf grp),
                  tocTextNodeAnchor n⟩])
                (seen ++ [lowerStr (itemNumberOf grp)]) from by
            simp only [scanTextNodes, hskipf, hm]
            simp [hcond.1, hcond.2]]
          refine ih _ _ ?_ ?_
          · rw [List.map_append, List.nodup_append]
            refine ⟨h1, by simp, ?_⟩
            intro x hx
            simp only [List.map_cons, List.map_nil, List.mem_singleton]
            intro hx2
            exact hcond.1 (hx2 ▸ h2 x hx)
          · intro x hx
            rw [List.map_append] at hx
            rcases List.mem_append.mp hx with h | h
            · exact List.mem_append_left _ (h2 x h)
            · simp only [List.map_cons, List.map_nil, List.mem_singleton] at h
              subst h
              exact List.mem_append_right _ (by simp)
        · rw [show scanTextNodes titleMap (n :: rest) items seen
              = scanTextNodes titleMap rest items seen from by
            simp only [scanTextNodes, hskipf, hm]
            simp [if_neg hcond]]
          exact ih items seen h1 h2

theorem extract_toc_nodup (titleMap : Str → Option Str)
    (parents : List (List TocLink)) (textNodes : List TocTextNode) :
    ((extract_table_of_contents titleMap parents textNodes).map
      (fun i => lowerStr i.item_number)).Nodup := by
  unfold extract_table_of_contents
  have hA := scanContainers_inv titleMap parents [] [] false (by simp) (by simp)
  by_cases hempty : (scanContainers titleMap parents [] [] false).1.isEmpty
  · rw [if_pos hempty]
    exact scanTextNodes_inv titleMap textNodes _ _ hA.1 hA.2
  · rw [if_neg hempty]
    exact hA.1

/-- The sections produced by `_extract_sections` carry a subsequence of the
TOC's item numbers (each TOC item yields at most one section, in order). -/
theorem sectionsLoop_sublist {α : Type} (extractBetween : α → Option α → Str) :
    ∀ pairs : List (TableOfContentsItem × α),
      ((sectionsLoop extractBetween pairs).map Section.item_number).Sublist
        (pairs.map (fun p => p.1.item_number)) := by
  intro pairs
  induction pairs with
  | nil => simp [sectionsLoop]
  | cons p rest ih =>
    obtain ⟨item, node⟩ := p
    simp only [sectionsLoop]
    by_cases hcl : (clean_section_content
        (extractBetween node (sectionEndNode rest))).isEmpty
    · rw [if_pos hcl]
      exact ih.trans (List.sublist_cons_self _ _)
    · rw [if_neg hcl]
      rw [List.map_cons, List.map_cons]
      exact ih.cons₂ _

theorem filterMap_fst_sublist {α : Type}
    (findStart : TableOfContentsItem → Option α)
    (toc : List TableOfContentsItem) :
    ((toc.filterMap (fun item => (findStart item).map (fun n => (item, n)))).map
      (fun p => p.1.item_number)).Sublist (toc.map (fun i => i.item_number)) := by
  induction toc with
  | nil => simp
  | cons item rest ih =>
    rw [List.filterMap_cons]
    match findStart item with
    | none => exact ih.trans (List.sublist_cons_self _ _)
    | some n =>
      simp only [Option.map_some, List.map_cons]
      exact ih.cons₂ _

theorem extract_sections_nodup {α : Type}
    (findStart : TableOfContentsItem → Option α)
    (extractBetween : α → Option α → Str)
    (toc : List TableOfContentsItem)
    (htoc : (toc.map (fun i => lowerStr i.item_number)).Nodup) :
    ((extract_sections findStart extractBetween toc).map
      (fun s => lowerStr s.item_number)).Nodup := by
  have h1 := sectionsLoop_sublist extractBetween
    (toc.filterMap (fun item => (findStart item).map (fun n => (item, n))))
  have h2 := filterMap_fst_sublist findStart toc
  have h3 := (h1.trans h2).map lowerStr
  rw [List.map_map, List.map_map] at h3
  exact h3.nodup htoc

/-- C5: the table-of-contents extractor (both strategies) dedups entries by
lowercased item number, so the returned TOC — and any Section list derived
from it — has at most one entry per case-insensitive item number; a document
carrying both `"Item 1A"` and `"ITEM 1A"` linked headings yields exactly one
TOC item (the first occurrence) and exactly one Section. -/
theorem toc_case_insensitive_unique :
    (∀ (titleMap : Str → Option Str) parents textNodes,
      ((extract_table_of_contents titleMap parents textNodes).map
        (fun i => lowerStr i.item_number)).Nodup) ∧
    (∀ (titleMap : Str → Option Str) parents textNodes (α : Type)
        (findStart : TableOfContentsItem → Option α)
        (extractBetween : α → Option α → Str),
      ((extract_sections findStart extractBetween
          (extract_table_of_contents titleMap parents textNodes)).map
        (fun s => lowerStr s.item_number)).Nodup) ∧
    ((extract_table_of_contents (fun _ => none)
        [[⟨some "#a".toList, "Item 1A. Risk Factors".toList⟩,
          ⟨some "#b".toList, "ITEM 1A. Risk Factors".toList⟩]] []).map
      (fun i => i.item_number) = ["Item 1A".toList]) ∧
    ((extract_sections (fun _ => some ())
        (fun _ _ => "The quarterly risk factors body".toList)
        (extract_table_of_contents (fun _ => none)
          [[⟨some "#a".toList, "Item 1A. Risk Factors".toList⟩,
            ⟨some "#b".toList, "ITEM 1A. Risk Factors".toList⟩]] [])).map
      (fun s => s.item_number) = ["Item 1A".toList]) := by
  refine ⟨?_, ?_, by rfl, by rfl⟩
  · intro titleMap parents textNodes
    exact extract_toc_nodup titleMap parents textNodes
  · intro titleMap parents textNodes α findStart extractBetween
    exact extract_sections_nodup findStart extractBetween _
      (extract_toc_nodup titleMap parents textNodes)

end SECProcessor

namespace SECProcessor

theorem processLinks_cons_none {titleMap : Str → Option Str} {href txt : Str}
    {rest : List (Str × Str)} {items seen flag}
    (hm : itemMatch txt = none) :
    processLinks titleMap ((href, txt) :: rest) items seen flag
      = processLinks titleMap rest items seen flag := by
  simp [processLinks, hm]

theorem processLinks_cons_seen {titleMap : Str → Option Str} {href txt grp : Str}
    {rest : List (Str × Str)} {items seen flag}
    (hm : itemMatch txt = some grp)
    (hseen : lowerStr (itemNumberOf grp) ∈ seen) :
    processLinks titleMap ((href, txt) :: rest) items seen flag
      = processLinks titleMap rest items seen flag := by
  simp only [processLinks, hm]
  rw [if_pos hseen]

theorem processLinks_cons_new {titleMap : Str → Option Str} {href txt grp : Str}
    {rest : List (Str × Str)} {items seen flag}
    (hm : itemMatch txt = some grp)
    (hseen : lowerStr (itemNumberOf grp) ∉ seen) :
    processLinks titleMap ((href, txt) :: rest) items seen flag
      = processLinks titleMap rest
          (items ++ [⟨itemNumberOf grp,
            get_item_title titleMap (itemNumberOf grp), some href⟩])
          (seen ++ [lowerStr (itemNumberOf grp)]) true := by
  simp only [processLinks, hm]
  rw [if_neg hseen]

theorem processLinks_flag_true (titleMap : Str → Option Str) :
    ∀ (links : List (Str × Str)) items seen,
      (processLinks titleMap links items seen true).2.2 = true := by
  intro links
  induction links with
  | nil => intro items seen; rfl
  | cons hl rest ih =>
    intro items seen
    obtain ⟨href, txt⟩ := hl
    match hm : itemMatch txt with
    | none => rw [processLinks_cons_none hm]; exact ih items seen
    | some grp =>
      by_cases hseen : lowerStr (itemNumberOf grp) ∈ seen
      · rw [processLinks_cons_seen hm hseen]; exact ih items seen
      · rw [processLinks_cons_new hm hseen]; exact ih _ _

theorem processLinks_items_grow (titleMap : Str → Option Str) :
    ∀ (links : List (Str × Str)) items seen flag,
      ∃ new, (processLinks titleMap links items seen flag).1 = items ++ new := by
  intro links
  induction links with
  | nil => intro items seen flag; exact ⟨[], by simp [processLinks]⟩
  | cons hl rest ih =>
    intro items seen flag
    obtain ⟨href, txt⟩ := hl
    match hm : itemMatch txt with
    | none => rw [processLinks_cons_none hm]; exact ih items seen flag
    | some grp =>
      by_cases hseen : lowerStr (itemNumberOf grp) ∈ seen
      · rw [processLinks_cons_seen hm hseen]; exact ih items seen flag
      · rw [processLinks_cons_new hm hseen]
        obtain ⟨new, hnew⟩ := ih (items ++ [⟨itemNumberOf grp,
          get_item_title titleMap (itemNumberOf grp), some href⟩])
          (seen ++ [lowerStr (itemNumberOf grp)]) true
        exact ⟨[⟨itemNumberOf grp,
            get_item_title titleMap (itemNumberOf grp), some href⟩] ++ new,
          by rw [hnew, List.append_assoc]⟩

theorem processLinks_no_match (titleMap : Str → Option Str) :
    ∀ (links : List (Str × Str)), (∀ hl ∈ links, itemMatch hl.2 = none) →
      ∀ items seen flag,
        processLinks titleMap links items seen flag = (items, seen, flag) := by
  intro links
  induction links with
  | nil => intro _ items seen flag; rfl
  | cons hl rest ih =>
    intro h items seen flag
    obtain ⟨href, txt⟩ := hl
    rw [processLinks_cons_none (h (href, txt) (by simp))]
    exact ih (fun x hx => h x (by simp [hx])) items seen flag

theorem processLinks_first_match (titleMap : Str → Option Str) :
    ∀ (links : List (Str × Str)),
      (links.any fun hl => (itemMatch hl.2).isSome) = true →
      ∀ items,
        (processLinks titleMap links items [] false).2.2 = true ∧
        (processLinks titleMap links items [] false).1 ≠ [] := by
  intro links
  induction links with
  | nil => intro h; simp at h
  | cons hl rest ih =>
    intro h items
    obtain ⟨href, txt⟩ := hl
    match hm : itemMatch txt with
    | none =>
      rw [processLinks_cons_none hm]
      refine ih ?_ items
      simp only [List.any_cons, Bool.or_eq_true] at h
      rcases h with h | h
      · rw [hm] at h; simp at h
      · exact h
    | some grp =>
      rw [processLinks_cons_new hm (by simp)]
      refine ⟨processLinks_flag_true titleMap rest _ _, ?_⟩
      obtain ⟨new, hnew⟩ := processLinks_items_grow titleMap rest
        (items ++ [⟨itemNumberOf grp,
          get_item_title titleMap (itemNumberOf grp), some href⟩])
        ([] ++ [lowerStr (itemNumberOf grp)]) true
      rw [hnew]
      simp

theorem scanContainers_cons_skip {titleMap : Str → Option Str}
    {parent : List TocLink} {rest items seen flag}
    (h : (fragmentLinks parent).isEmpty = true) :
    scanContainers titleMap (parent :: rest) items seen flag
      = scanContainers titleMap rest items seen flag := by
  simp [scanContainers, h]

theorem scanContainers_cons_go {titleMap : Str → Option Str}
    {parent : List TocLink} {rest items seen flag}
    (h : (fragmentLinks parent).isEmpty = false) :
    scanContainers titleMap (parent :: rest) items seen flag
      = (if (processLinks titleMap (fragmentLinks parent) items seen flag).2.2
         then ((processLinks titleMap (fragmentLinks parent) items seen flag).1,
           (processLinks titleMap (fragmentLinks parent) items seen flag).2.1)
         else scanContainers titleMap rest
           (processLinks titleMap (fragmentLinks parent) items seen flag).1
           (processLinks titleMap (fragmentLinks parent) items seen flag).2.1
           (processLinks titleMap (fragmentLinks parent) items seen flag).2.2) := by
  simp [scanContainers, h]

theorem scanContainers_pre (titleMap : Str → Option Str) :
    ∀ (pre : List (List TocLink)), (∀ p ∈ pre, containerHasMatch p = false) →
      ∀ rest, scanContainers titleMap (pre ++ rest) [] [] false
        = scanContainers titleMap rest [] [] false := by
  intro pre
  induction pre with
  | nil => intro _ rest; rfl
  | cons p pre' ih =>
    intro h rest
    rw [List.cons_append]
    cases hempty : (fragmentLinks p).isEmpty
    · have hnm : ∀ hl ∈ fragmentLinks p, itemMatch hl.2 = none := by
        have := h p (by simp)
        rw [containerHasMatch, List.any_eq_false] at this
        intro hl hhl
        have h2 := this hl hhl
        simpa using h2
      rw [scanContainers_cons_go hempty,
        processLinks_no_match titleMap _ hnm [] [] false]
      simp only [if_neg (by simp : ¬(([], [], false) :
        List TableOfContentsItem × List Str × Bool).2.2 = true)]
      exact ih (fun x hx => h x (by simp [hx])) rest
    · rw [scanContainers_cons_skip hempty]
      exact ih (fun x hx => h x (by simp [hx])) rest

/-- C8: during Strategy A, once some container yields an in-document link
matching the item pattern, that container is scanned fully and no later
container (and no Strategy B text node) contributes: the extracted TOC
equals the one obtained with every later container removed, and consists
exactly of the first matching container's items. -/
theorem first_container_wins (titleMap : Str → Option Str)
    (pre : List (List TocLink)) (c : List TocLink)
    (post : List (List TocLink)) (textNodes textNodes' : List TocTextNode)
    (hpre : ∀ p ∈ pre, containerHasMatch p = false)
    (hc : containerHasMatch c = true) :
    extract_table_of_contents titleMap (pre ++ c :: post) textNodes
      = extract_table_of_contents titleMap (pre ++ [c]) textNodes' ∧
    extract_table_of_contents titleMap (pre ++ c :: post) textNodes
      = (processLinks titleMap (fragmentLinks c) [] [] false).1 := by
  have hany : ((fragmentLinks c).any fun hl => (itemMatch hl.2).isSome) = true := hc
  have hne : (fragmentLinks c).isEmpty = false := by
    cases hfc : fragmentLinks c
    · rw [hfc] at hany; simp at hany
    · rfl
  have hfirst := processLinks_first_match titleMap (fragmentLinks c) hany []
  have hbreak : ∀ post', scanContainers titleMap (c :: post') [] [] false
      = ((processLinks titleMap (fragmentLinks c) [] [] false).1,
        (processLinks titleMap (fragmentLinks c) [] [] false).2.1) := by
    intro post'
    rw [scanContainers_cons_go hne, if_pos hfirst.1]
  have hext : ∀ (post' : List (List TocLink)) (tn : List TocTextNode),
      extract_table_of_contents titleMap (pre ++ c :: post') tn
        = (processLinks titleMap (fragmentLinks c) [] [] false).1 := by
    intro post' tn
    unfold extract_table_of_contents
    rw [scanContainers_pre titleMap pre hpre (c :: post'), hbreak post']
    rw [if_neg (by simpa using hfirst.2)]
  exact ⟨(hext post textNodes).trans (hext [] textNodes').symm, hext post textNodes⟩

theorem first_container_wins_witness :
    extract_table_of_contents (fun _ => none)
        ([[⟨none, "no links".toList⟩]] ++
          [⟨some "#x".toList, "Item 1. Business".toList⟩] ::
          [[⟨some "#y".toList, "Item 2. Properties".toList⟩]]) []
      = extract_table_of_contents (fun _ => none)
          ([[⟨none, "no links".toList⟩]] ++
            [[⟨some "#x".toList, "Item 1. Business".toList⟩]]) [] ∧
    extract_table_of_contents (fun _ => none)
        ([[⟨none, "no links".toList⟩]] ++
          [⟨some "#x".toList, "Item 1. Business".toList⟩] ::
          [[⟨some "#y".toList, "Item 2. Properties".toList⟩]]) []
      = (processLinks (fun _ => none)
          (fragmentLinks [⟨some "#x".toList, "Item 1. Business".toList⟩])
          [] [] false).1 :=
  first_container_wins (fun _ => none)
    [[⟨none, "no links".toList⟩]]
    [⟨some "#x".toList, "Item 1. Business".toList⟩]
    [[⟨some "#y".toList, "Item 2. Properties".toList⟩]] [] []
    (by decide) (by decide)

end SECProcessor

namespace SECProcessor

/-! ## C7: anchor resolution over empty anchors -/

/-- C7 counterexample: the sibling walk only skips empty `<a>` elements, so
an empty anchor followed by an *empty `<div>`* and then a paragraph resolves
to the contentless `<div>`, not to "the first sibling carrying content" (the
paragraph). -/
theorem anchor_resolution_content_cex :
    find_section_start_element
        [Node.tag "body" none none
          [Node.tag "a" (some "risk".toList) none [],
           Node.tag "div" none none [],
           Node.tag "p" none none [Node.text "Real content here".toList]]]
        ⟨"Item 1A".toList, "Risk Factors".toList, some "#risk".toList⟩
      = some (Node.tag "div" none none []) ∧
    hasVisibleText (Node.tag "div" none none []) = false ∧
    hasVisibleText (Node.tag "p" none none
      [Node.text "Real content here".toList]) = true :=
  ⟨rfl, rfl, rfl⟩

theorem skipEmptyAnchors_eq_find :
    ∀ l : List Node,
      skipEmptyAnchors l = l.find? (fun n => n.isTag && !isEmptyAnchor n) := by
  intro l
  induction l with
  | nil => rfl
  | cons n r ih =>
    match n with
    | .text s =>
      rw [show skipEmptyAnchors (.text s :: r) = skipEmptyAnchors r from rfl, ih]
      rw [List.find?_cons_of_neg _ (by simp [Node.isTag])]
    | .tag nm i na ch =>
      by_cases he : isEmptyAnchor (.tag nm i na ch)
      · rw [show skipEmptyAnchors (.tag nm i na ch :: r)
            = skipEmptyAnchors r from by simp [skipEmptyAnchors, he], ih]
        rw [List.find?_cons_of_neg _ (by simp [Node.isTag, he])]
      · rw [show skipEmptyAnchors (.tag nm i na ch :: r)
            = some (.tag nm i na ch) from by simp [skipEmptyAnchors, he]]
        rw [List.find?_cons_of_pos _ (by
          simp [Node.isTag, (Bool.not_eq_true _).mp he])]

/-- C7 as amended: when the anchor lookup yields an `<a>` element with no
visible text, the resolver returns the first following sibling *tag* that is
not an empty `<a>` — whether or not that sibling itself carries content (see
`anchor_resolution_content_cex`) — and falls back to the anchor element
itself when no such sibling exists.  In particular an empty anchor followed
by further empty anchors and then a paragraph resolves to that paragraph. -/
theorem anchor_resolution_skips_empty_anchors
    (soup : List Node) (item : TableOfContentsItem)
    (anchor_name : Str) (target : Node) (following : List Node)
    (hanchor : item.anchor_text = some ('#' :: anchor_name))
    (hfind : (match findById anchor_name soup with
              | some p => some p
              | none => findByNameAttr anchor_name soup) = some (target, following))
    (hname : target.name = "a") (hvis : hasVisibleText target = false) :
    find_section_start_element soup item
      = some ((following.find? (fun n => n.isTag && !isEmptyAnchor n)).getD target) := by
  obtain ⟨num, title, anc⟩ := item
  simp only [TableOfContentsItem.anchor_text] at hanchor
  subst hanchor
  show (match (match findById anchor_name soup with
              | some p => some p
              | none => findByNameAttr anchor_name soup) with
        | some (target, following) =>
          if target.name == "a" && !hasVisibleText target then
            match skipEmptyAnchors following with
            | some sib => some sib
            | none => some target
          else some target
        | none => scanHeaders ⟨num, title, some ('#' :: anchor_name)⟩ soup)
      = some ((following.find? (fun n => n.isTag && !isEmptyAnchor n)).getD target)
  rw [hfind]
  show (if (target.name == "a" && !hasVisibleText target) = true then
          match skipEmptyAnchors following with
          | some sib => some sib
          | none => some target
        else some target)
      = some ((following.find? (fun n => n.isTag && !isEmptyAnchor n)).getD target)
  rw [if_pos (by simp [hname, hvis])]
  rw [← skipEmptyAnchors_eq_find]
  cases hskip : skipEmptyAnchors following <;> simp [hskip]

/-- Scenario: an empty anchor target followed by three more empty anchors and
then a paragraph resolves to that paragraph. -/
theorem anchor_resolution_skips_empty_anchors_witness :
    find_section_start_element
        [Node.tag "body" none none
          [Node.tag "a" (some "risk".toList) none [],
           Node.tag "a" none none [], Node.tag "a" none none [],
           Node.tag "a" none none [],
           Node.tag "p" none none [Node.text "Real content here".toList]]]
        ⟨"Item 1A".toList, "Risk Factors".toList, some "#risk".toList⟩
      = some (Node.tag "p" none none [Node.text "Real content here".toList]) := by
  rw [anchor_resolution_skips_empty_anchors
    [Node.tag "body" none none
      [Node.tag "a" (some "risk".toList) none [],
       Node.tag "a" none none [], Node.tag "a" none none [],
       Node.tag "a" none none [],
       Node.tag "p" none none [Node.text "Real content here".toList]]]
    ⟨"Item 1A".toList, "Risk Factors".toList, some "#risk".toList⟩
    "risk".toList
    (Node.tag "a" (some "risk".toList) none [])
    [Node.tag "a" none none [], Node.tag "a" none none [],
     Node.tag "a" none none [],
     Node.tag "p" none none [Node.text "Real content here".toList]]
    rfl rfl rfl rfl]
  rfl

end SECProcessor
